import Mathlib

/-!
Verification of the graphslice slicing pipeline.

This file is a shallow embedding, in Lean 4, of the pure logic of the
graphslice repository (`graph.rs`, `verifier.rs`, `compression.rs`,
`slicer.rs`, `fuzzy_slicer.rs`, `lsp_client.rs`), together with theorems
settling the stated properties of that code.

Modelling conventions:
* Rust `PathBuf` is modelled as `String`; `u32`/`usize` as `Nat`; `i64` as
  `Int` (no arithmetic in the code can overflow an `i64` — the verifier only
  compares and adjusts bounds by one).
* External collaborators (the language-server subprocess, the tree-sitter
  parser, the filesystem, the LLM endpoint) are out of scope per the design:
  their answers enter the embedding as explicit oracle parameters (a
  `SliceWorld` record of functions), so the embedded orchestrator code is the
  literal control flow of the source over arbitrary collaborator behaviour.
* The z3 solver is an external decision procedure for linear-integer
  constraint conjunctions; its contract (SAT exactly when an integer
  assignment satisfies every asserted constraint) is modelled by an
  executable decision procedure `checkSat`, certified against the
  mathematical satisfiability statement in `checkSat_iff_sat`.
-/

/-! ## Verifier (`verifier.rs`)

Constraints are `(variable name, comparison operator, integer)` triples,
exactly the `(&str, &str, i64)` tuples `Verifier` receives. -/

/-- The closed operator set of the verifier (the match arms in
`verifier.rs`). -/
def supportedOp (op : String) : Bool :=
  op = ">" || op = "<" || op = ">=" || op = "<=" || op = "==" || op = "!="

/-- Semantics of a single asserted constraint under an integer value `n` for
its variable: exactly the z3 assertion `verifier.rs` builds for each
`(name, op, val)` triple (`gt`, `lt`, `ge`, `le`, `eq`, `not eq`).  An
operator outside the closed set asserts nothing (in `check_consistency` it is
skipped by `continue`). -/
def opHolds (n : Int) (op : String) (v : Int) : Bool :=
  if op = ">" then decide (v < n)
  else if op = "<" then decide (n < v)
  else if op = ">=" then decide (v ≤ n)
  else if op = "<=" then decide (n ≤ v)
  else if op = "==" then decide (n = v)
  else if op = "!=" then !(decide (n = v))
  else true

/-- A constraint triple holds under an assignment of integers to variable
names.  All variables share the integer sort; distinct names denote distinct
variables — hence a single assignment function. -/
def cHolds (f : String → Int) (c : String × String × Int) : Bool :=
  opHolds (f c.1) c.2.1 c.2.2

/-- All single-variable constraints `(op, val)` in `l` hold at `n`. -/
def allHoldB (n : Int) (l : List (String × Int)) : Bool :=
  l.all (fun p => opHolds n p.1 p.2)

/-- Values `v` of `== v` constraints. -/
def eqsOf (l : List (String × Int)) : List Int :=
  l.filterMap (fun p => if p.1 = "==" then some p.2 else none)

/-- Integer lower bounds: `> v` contributes `v+1`, `>= v` contributes `v`. -/
def lowsOf (l : List (String × Int)) : List Int :=
  l.filterMap (fun p =>
    if p.1 = ">" then some (p.2 + 1) else if p.1 = ">=" then some p.2 else none)

/-- Integer upper bounds: `< v` contributes `v-1`, `<= v` contributes `v`. -/
def hisOf (l : List (String × Int)) : List Int :=
  l.filterMap (fun p =>
    if p.1 = "<" then some (p.2 - 1) else if p.1 = "<=" then some p.2 else none)

/-- Values `v` of `!= v` constraints. -/
def neqsOf (l : List (String × Int)) : List Int :=
  l.filterMap (fun p => if p.1 = "!=" then some p.2 else none)

/-- Maximum of `a` and the elements of `l`. -/
def maxListI (a : Int) (l : List Int) : Int := l.foldl max a

/-- Minimum of `a` and the elements of `l`. -/
def minListI (a : Int) (l : List Int) : Int := l.foldl min a

/-- Decision procedure for satisfiability of a conjunction of single-variable
linear-integer constraints: with an equality present it suffices to test its
value; with no lower (or no upper) bound the constraint set is always
satisfiable; with both bounds present, by pigeonhole it suffices to test the
`k+1` integers starting at the greatest lower bound, where `k` is the number
of disequalities.  Certified by `satOne_iff`. -/
def satOne (l : List (String × Int)) : Bool :=
  match eqsOf l with
  | e :: _ => allHoldB e l
  | [] =>
    match lowsOf l, hisOf l with
    | [], _ => true
    | _ :: _, [] => true
    | lo0 :: lows, _ :: _ =>
      let lo := maxListI lo0 lows
      let k := (neqsOf l).length
      ((List.range (k + 1)).map (fun i : Nat => lo + (i : Int))).any
        (fun n => allHoldB n l)

/-- Variable names occurring in a constraint list (each considered once). -/
def varsOf (cs : List (String × String × Int)) : List String :=
  (cs.map (fun c => c.1)).dedup

/-- The `(op, val)` pairs constraining variable `x`. -/
def constraintsFor (x : String) (cs : List (String × String × Int)) :
    List (String × Int) :=
  cs.filterMap (fun c => if c.1 = x then some (c.2.1, c.2.2) else none)

/-- Executable decision of the satisfiability question `check_consistency`
and `verify_integer_reachability` hand to z3: a conjunction of
single-variable constraints over finitely many variables is satisfiable
exactly when each variable's own constraints are.  Certified against the
mathematical satisfiability statement in `checkSat_iff_sat`. -/
def checkSat (cs : List (String × String × Int)) : Bool :=
  (varsOf cs).all (fun x => satOne (constraintsFor x cs))

/-- `Verifier::check_consistency` (`verifier.rs`, lines 96–117): every
supported constraint is asserted to the solver; an unsupported operator is
silently skipped (`continue`); the result is the solver's satisfiability
verdict on the asserted conjunction. -/
def check_consistency (cs : List (String × String × Int)) : Bool :=
  checkSat (cs.filter (fun c => supportedOp c.2.1))

/-- `Verifier::verify_integer_reachability` (`verifier.rs`, lines 50–93):
asserting the constraint list fails on the first unsupported operator; the
target operator is then checked the same way; otherwise the constraints and
the target are asserted together and the solver's verdict is returned. -/
def verify_integer_reachability (cs : List (String × String × Int))
    (t : String × String × Int) : Except String Bool :=
  match cs.find? (fun c => !supportedOp c.2.1) with
  | some c => .error ("Unsupported operator: " ++ c.2.1)
  | none =>
    if supportedOp t.2.1 then .ok (checkSat (cs ++ [t]))
    else .error ("Unsupported operator: " ++ t.2.1)

/-! ## Graph model (`graph.rs`)

`NodeId` is `(file, line, column)` with `PathBuf` modelled as `String`;
`CodeNode` attaches extracted source text and a kind string; edges are an
ordered `Vec`; nodes live in a map keyed by `NodeId` (modelled as an
association list where the most recent insertion wins, matching
`HashMap::insert` overwrite semantics). -/

/-- `graph.rs` `NodeId`: identity of a code location. -/
structure NodeId where
  file : String
  line : Nat
  column : Nat
deriving DecidableEq, Repr

/-- `graph.rs` `EdgeType`. -/
inductive EdgeType where
  | Defines
  | Calls
  | Reads
  | Writes
  | References
deriving DecidableEq, Repr

/-- `graph.rs` `CodeNode`. -/
structure CodeNode where
  id : NodeId
  code : String
  node_type : String
deriving DecidableEq, Repr

/-- `graph.rs` `Edge`: directed `from → to` plus type.  `from` and `to` are Lean
keywords, hence the field names `from_` and `to_`. -/
structure Edge where
  from_ : NodeId
  to_ : NodeId
  edge_type : EdgeType
deriving DecidableEq, Repr

/-- `graph.rs` `DependencyGraph`: a node map and an ordered edge sequence. -/
structure DependencyGraph where
  nodes : List (NodeId × CodeNode)
  edges : List Edge
deriving DecidableEq, Repr

/-- The empty graph (`DependencyGraph::new`). -/
def DependencyGraph.empty : DependencyGraph := ⟨[], []⟩

/-- `HashMap::get` on the node map: the most recent insertion for a key. -/
def DependencyGraph.findNode (g : DependencyGraph) (id : NodeId) : Option CodeNode :=
  (g.nodes.find? (fun p => p.1 = id)).map Prod.snd

/-- `HashMap::contains_key` on the node map. -/
def DependencyGraph.containsKey (g : DependencyGraph) (id : NodeId) : Bool :=
  g.nodes.any (fun p => p.1 = id)

/-- `DependencyGraph::add_node`: insert, overwriting any previous node with
the same `NodeId` (the new entry is consulted first). -/
def DependencyGraph.add_node (g : DependencyGraph) (n : CodeNode) : DependencyGraph :=
  { g with nodes := (n.id, n) :: g.nodes }

/-- `DependencyGraph::add_edge`: append to the edge sequence. -/
def DependencyGraph.add_edge (g : DependencyGraph) (e : Edge) : DependencyGraph :=
  { g with edges := g.edges ++ [e] }

/-- The inner `for edge in &self.edges` loop of one `bfs_from` iteration:
scan every edge; follow those leaving the current node whose target is not
yet visited, marking targets visited at enqueue time and queueing them at
distance `d + 1` in edge order. -/
def expandEdges (id : NodeId) (d : Nat) :
    List Edge → List NodeId → List NodeId × List (NodeId × Nat)
  | [], v => (v, [])
  | e :: es, v =>
    if e.from_ = id ∧ ¬ e.to_ ∈ v then
      let r := expandEdges id d es (e.to_ :: v)
      (r.1, (e.to_, d + 1) :: r.2)
    else
      expandEdges id d es v

/-- The `while let Some((node_id, distance)) = queue.pop_front()` loop of
`bfs_from`, with an explicit fuel parameter for termination; the fuel chosen
by `bfs_from` is ample (`bfs_from_fuel_stable`), so the zero-fuel branch is
never taken. -/
def bfsLoop (edges : List Edge) : Nat → List NodeId → List (NodeId × Nat) → List (NodeId × Nat)
  | _, _, [] => []
  | 0, _, _ :: _ => []
  | fuel + 1, v, (id, d) :: q =>
    let r := expandEdges id d edges v
    (id, d) :: bfsLoop edges fuel r.1 (q ++ r.2)

/-- `DependencyGraph::bfs_from`: all nodes reachable from `root`, as
`(NodeId, distance)` pairs in BFS order; the root is visited at distance 0
and marked visited before the loop starts. -/
def DependencyGraph.bfs_from (g : DependencyGraph) (root : NodeId) : List (NodeId × Nat) :=
  bfsLoop g.edges (g.edges.length + 1) [root] [(root, 0)]

/-- `DependencyGraph::get_dependencies`: nodes reached by one outgoing edge. -/
def DependencyGraph.get_dependencies (g : DependencyGraph) (node : NodeId) : List CodeNode :=
  (g.edges.filter (fun e => e.from_ = node)).filterMap (fun e => g.findNode e.to_)

/-- Number of distinct edge targets not yet visited: the BFS measure. -/
def unvisCount (edges : List Edge) (v : List NodeId) : Nat :=
  (((edges.map Edge.to_).dedup).filter (fun t => decide (t ∉ v))).length

/-! ## Hierarchical renderer (`compression.rs`)

Rust's string operations (`lines`, `trim`, `starts_with`, `contains`,
`join`) are modelled by explicit recursions over the character list so that
concrete instances evaluate inside the kernel.  `strLines` differs from
Rust's `str::lines()` only on a trailing newline (Rust drops the final empty
fragment) and `\r\n` endings, neither of which affects the properties proved
here (the concrete inputs used below contain no trailing newline and no
carriage returns). -/

def charsStart : List Char → List Char → Bool
  | [], _ => true
  | _ :: _, [] => false
  | a :: as, b :: bs => a = b && charsStart as bs

def tailsContain (pat : List Char) : List Char → Bool
  | [] => charsStart pat []
  | c :: cs => charsStart pat (c :: cs) || tailsContain pat cs

/-- Rust `str::contains` for a literal pattern. -/
def strContains (hay pat : String) : Bool := tailsContain pat.toList hay.toList

/-- Rust `str::starts_with` for a literal pattern. -/
def strStartsWith (s pat : String) : Bool := charsStart pat.toList s.toList

/-- Rust `str::trim`: strip leading and trailing whitespace. -/
def strTrim (s : String) : String :=
  ⟨((s.toList.dropWhile Char.isWhitespace).reverse.dropWhile Char.isWhitespace).reverse⟩

def splitOnNl : List Char → List (List Char)
  | [] => [[]]
  | c :: cs =>
    let r := splitOnNl cs
    if c = '\n' then [] :: r
    else
      match r with
      | [] => [[c]]
      | l :: ls => (c :: l) :: ls

/-- Rust `str::lines()`: the newline-separated fragments (see the section
comment for the trailing-newline convention). -/
def strLines (s : String) : List String := (splitOnNl s.toList).map (fun cs => ⟨cs⟩)

/-- Rust `Vec<&str>::join("\n")`. -/
def strJoinNl : List String → String
  | [] => ""
  | [l] => l
  | l :: ls => l ++ "\n" ++ strJoinNl ls

/-- `compression.rs` `InclusionLevel`. -/
inductive InclusionLevel where
  | FullSource
  | InterfaceSummary
  | Reference
deriving DecidableEq, Repr

/-- `compression.rs` `extract_interface`: keep the lines whose trimmed form
starts with a declaration keyword or contains a doc marker; if nothing
remains, fall back to the first line. -/
def extract_interface (code : String) : String :=
  let lines := (strLines code).filter (fun line =>
    let trimmed := strTrim line
    strStartsWith trimmed "pub fn" || strStartsWith trimmed "fn"
      || strStartsWith trimmed "pub struct" || strStartsWith trimmed "struct"
      || strStartsWith trimmed "impl" || strContains trimmed "///")
  if lines.isEmpty then (strLines code).headD ""
  else strJoinNl lines

/-- `compression.rs` `estimate_tokens`: `text.len() / 4`, where `len` is the
UTF-8 byte count and `/` is integer (floor) division. -/
def estimate_tokens (text : String) : Nat := text.utf8ByteSize / 4

/-- The token estimate as the specification words it ("characters divided by
4, ceiling"), declared only to compare with the source's `estimate_tokens`. -/
def estimate_tokens_ceil (text : String) : Nat := (text.length + 3) / 4

/-- One section of the built context, instrumented with the BFS depth at
which `HierarchicalContext::build` produced it (the source stores only
`(content, level)`; the depth is erased by `HierarchicalContext.build`
below). -/
structure SectionD where
  id : NodeId
  depth : Nat
  content : String
  level : InclusionLevel
deriving DecidableEq, Repr

/-- The `for (node_id, depth) in graph.bfs_from(root)` loop of
`HierarchicalContext::build` (`compression.rs`, lines 37–83), carrying the
running token counter; `none` models the `unwrap` panic on a node lookup
that fails.  Depth 0 is included in full without touching the budget;
depth 1 is included in full when it fits, else degraded to an interface
summary whose cost is added unchecked; depth ≥ 2 is an interface summary
when it fits, else an uncounted one-line reference (`buildLoopD` below).
The `match depth` body of one iteration: the produced `(content, level)`
pair and the updated token counter. -/
def buildStep (maxTokens : Nat) (id : NodeId) (depth : Nat) (node : CodeNode)
    (currentTokens : Nat) : String × InclusionLevel × Nat :=
  if depth = 0 then
    (node.code, InclusionLevel.FullSource, currentTokens)
  else if depth = 1 then
    let tokens := estimate_tokens node.code
    if currentTokens + tokens ≤ maxTokens then
      (node.code, InclusionLevel.FullSource, currentTokens + tokens)
    else
      let summary := extract_interface node.code
      (summary, InclusionLevel.InterfaceSummary,
        currentTokens + estimate_tokens summary)
  else
    let summary := extract_interface node.code
    let tokens := estimate_tokens summary
    if currentTokens + tokens ≤ maxTokens then
      (summary, InclusionLevel.InterfaceSummary, currentTokens + tokens)
    else
      ("// See: " ++ id.file ++ ":" ++ toString id.line,
        InclusionLevel.Reference, currentTokens)

/-- The section-building loop of `HierarchicalContext::build`, instrumented
with depths; `none` models the `unwrap` panic on a failed node lookup. -/
def buildLoopD (g : DependencyGraph) (maxTokens : Nat) :
    List (NodeId × Nat) → Nat → Option (List SectionD)
  | [], _ => some []
  | (id, depth) :: rest, currentTokens =>
    if currentTokens ≥ maxTokens then some []
    else
      match g.findNode id with
      | none => none
      | some node =>
        let step := buildStep maxTokens id depth node currentTokens
        match buildLoopD g maxTokens rest step.2.2 with
        | none => none
        | some secs => some (⟨id, depth, step.1, step.2.1⟩ :: secs)

/-- `compression.rs` `HierarchicalContext`: the selected sections.  The
source keys them by `NodeId` in a `HashMap`; the BFS ids are distinct
(`claim_C4_bfs_contract`), so an ordered list of `(id, content, level)`
entries carries the same mapping. -/
structure HierarchicalContext where
  sections : List (NodeId × String × InclusionLevel)
deriving DecidableEq, Repr

/-- `HierarchicalContext::build`: walk `bfs_from root`, budget the sections,
and return them (depth erased, as in the source); `none` models a panic of
the `unwrap` on a node absent from the map. -/
def HierarchicalContext.build (g : DependencyGraph) (root : NodeId)
    (maxTokens : Nat) : Option HierarchicalContext :=
  (buildLoopD g maxTokens (g.bfs_from root) 0).map
    (fun secs => ⟨secs.map (fun s => (s.id, s.content, s.level))⟩)

/-- A section whose token cost was admitted only under the budget check:
full source at depth 1, or an interface summary at depth ≥ 2. -/
def budgetChecked (s : SectionD) : Bool :=
  (s.depth = 1 && s.level = InclusionLevel.FullSource)
    || (2 ≤ s.depth && s.level = InclusionLevel.InterfaceSummary)

/-- Total `estimate_tokens` cost of the budget-checked sections. -/
def checkedTokens (secs : List SectionD) : Nat :=
  ((secs.filter budgetChecked).map (fun s => estimate_tokens s.content)).sum

/-! ## Orchestrator, fuzzy slicer and backend client
(`slicer.rs`, `fuzzy_slicer.rs`, `extractor.rs`, `lsp_client.rs`)

The external collaborators — filesystem, language-server backend,
tree-sitter extractor, workspace scan and LLM — are oracles collected in
`SliceWorld`; the embedded functions are the source's control flow over an
arbitrary such world.  URIs are modelled as already-converted file paths
(the slicer only ever converts a `file://` URI back to the path it came
from). -/

/-- `extractor.rs` `Constraint`: `(variable, operator, integer)`. -/
structure Constraint where
  var : String
  op : String
  val : Int
deriving DecidableEq, Repr

/-- `extractor.rs` `SymbolInfo`. -/
structure SymbolInfo where
  name : String
  kind : String
  code : String
  line : Nat
deriving DecidableEq, Repr

/-- `fuzzy_slicer.rs` `LocatedSymbol`: a symbol plus its containing file. -/
structure LocatedSymbol where
  info : SymbolInfo
  file : String
deriving DecidableEq, Repr

/-- `fuzzy_slicer.rs` `LlmAnalysis`: the parsed `{"calls": …, "types": …}`
object. -/
structure LlmAnalysis where
  calls : List String
  types : List String
deriving DecidableEq, Repr

/-- `lsp_types::Location`, reduced to the fields the slicer reads: the URI
(as a file path) and `range.start`. -/
structure Location where
  file : String
  line : Nat
  column : Nat
deriving DecidableEq, Repr

/-- `lsp_types::CallHierarchyItem`, reduced to the fields the slicer reads:
the URI (as a file path), `range.start`, and the item name. -/
structure CallItem where
  file : String
  line : Nat
  column : Nat
  name : String
deriving DecidableEq, Repr

/-- `lsp_types::CallHierarchyOutgoingCall`: the callee (`to`) and the
call-site ranges inside the caller, each reduced to its start position. -/
structure OutgoingCall where
  to_ : CallItem
  from_ranges : List (Nat × Nat)
deriving DecidableEq, Repr

/-- The out-of-scope collaborators, as oracles: `fs` is
`std::fs::read_to_string`; `diagnosticsErrors` the count of Error-severity
diagnostics the backend published for a file; `references`, `definitions`,
`callHierarchy`, `outgoingCalls` the backend queries; `extractBlock` and
`extractConstraints` the tree-sitter extractor; `symbolCache` the fuzzy
slicer's name index after the workspace scan; `llm` the parsed LLM analysis
(or the error produced by an unconfigured client, a failed request, or an
unparseable response). -/
structure SliceWorld where
  fs : String → Option String
  diagnosticsErrors : String → Nat
  references : String → Nat → Nat → List Location
  definitions : String → Nat → Nat → List Location
  callHierarchy : String → Nat → Nat → List CallItem
  outgoingCalls : CallItem → List OutgoingCall
  extractBlock : String → Nat → Nat → Option String
  extractConstraints : String → Nat → Nat → List Constraint × List Constraint
  symbolCache : String → List LocatedSymbol
  llm : Except String LlmAnalysis

/-- `Slicer::read_location` (`slicer.rs`, lines 243–252): one line of a
file, or `""` past the end; unreadable files are an error (`?`). -/
def read_location (w : SliceWorld) (file : String) (line : Nat) :
    Except String String :=
  match w.fs file with
  | none => .error ("failed to read " ++ file)
  | some content => .ok ((strLines content).getD line "")

/-- `Slicer::read_implementation` (`slicer.rs`, lines 255–271): the
tree-sitter block at the position, falling back to the single line. -/
def read_implementation (w : SliceWorld) (file : String) (start_line : Nat) :
    Except String String :=
  match w.fs file with
  | none => .error ("failed to read " ++ file)
  | some content =>
    match w.extractBlock content start_line 0 with
    | some block => .ok block
    | none => .ok ((strLines content).getD start_line "")

/-- `Slicer::is_reachable` (`slicer.rs`, lines 36–65): reachable when the
file is unreadable, when the extracted assignment/condition union is empty,
or when `check_consistency` finds the union satisfiable. -/
def is_reachable (w : SliceWorld) (file : String) (line : Nat) (col : Nat) :
    Bool :=
  match w.fs file with
  | none => true
  | some content =>
    let ac := w.extractConstraints content line col
    if ac.1.isEmpty && ac.2.isEmpty then true
    else check_consistency ((ac.1 ++ ac.2).map (fun c => (c.var, c.op, c.val)))

/-- One iteration of the `for call in outgoing` loop of
`Slicer::build_graph` (`slicer.rs`, lines 189–234): a callee NodeId not yet
in the graph is admitted — node plus `Calls` edge — only when at least one
of the call's from-ranges is reachable; a callee NodeId already present gets
the `Calls` edge with no reachability check. -/
def processCall (w : SliceWorld) (def_path : String) (def_id : NodeId)
    (g : DependencyGraph) (call : OutgoingCall) :
    Except String DependencyGraph :=
  let call_id : NodeId := ⟨call.to_.file, call.to_.line, call.to_.column⟩
  if ¬ g.containsKey call_id then
    let any_site_reachable :=
      call.from_ranges.any (fun r => is_reachable w def_path r.1 r.2)
    if ¬ any_site_reachable then .ok g
    else
      match read_implementation w call.to_.file call.to_.line with
      | .error e => .error e
      | .ok call_code =>
        .ok ((g.add_node ⟨call_id, call_code, "call"⟩).add_edge
          ⟨def_id, call_id, EdgeType.Calls⟩)
  else .ok (g.add_edge ⟨def_id, call_id, EdgeType.Calls⟩)

/-- One iteration of the references loop of `Slicer::build_graph`
(`slicer.rs`, lines 120–148). -/
def processRef (w : SliceWorld) (target_id : NodeId) (g : DependencyGraph)
    (location : Location) : Except String DependencyGraph :=
  match read_location w location.file location.line with
  | .error e => .error e
  | .ok ref_code =>
    let ref_id : NodeId := ⟨location.file, location.line, location.column⟩
    .ok ((g.add_node ⟨ref_id, ref_code, "reference"⟩).add_edge
      ⟨ref_id, target_id, EdgeType.References⟩)

/-- One iteration of the definitions loop of `Slicer::build_graph`
(`slicer.rs`, lines 156–237): definition node, `Defines` edge, then the
call hierarchy items' outgoing calls through `processCall`. -/
def processDef (w : SliceWorld) (target_id : NodeId) (g : DependencyGraph)
    (location : Location) : Except String DependencyGraph :=
  let def_id : NodeId := ⟨location.file, location.line, location.column⟩
  match read_implementation w location.file location.line with
  | .error e => .error e
  | .ok def_code =>
    let g := (g.add_node ⟨def_id, def_code, "definition"⟩).add_edge
      ⟨target_id, def_id, EdgeType.Defines⟩
    (w.callHierarchy location.file location.line location.column).foldlM
      (fun g item => (w.outgoingCalls item).foldlM
        (processCall w location.file def_id) g) g

/-- `FuzzySlicer::add_dependency` (`fuzzy_slicer.rs`, lines 166–212): look
the name up in the symbol cache; take the first match; add its node if
absent; add an edge whose type is `Calls` for `Calls` and `Defines` for
anything else. -/
def add_dependency (cache : String → List LocatedSymbol)
    (g : DependencyGraph) (target_id : NodeId) (name : String)
    (edge_type : EdgeType) : DependencyGraph :=
  match (cache name).head? with
  | none => g
  | some d =>
    let def_id : NodeId := ⟨d.file, d.info.line, 0⟩
    let g := if g.containsKey def_id then g
      else g.add_node ⟨def_id, d.info.code, d.info.kind⟩
    g.add_edge
      (match edge_type with
        | EdgeType.Calls => ⟨target_id, def_id, EdgeType.Calls⟩
        | _ => ⟨target_id, def_id, EdgeType.Defines⟩)

/-- `FuzzySlicer::slice` (`fuzzy_slicer.rs`, lines 40–96): extract the
target block (falling back to the raw line; error past the end of the
file), add the target node, then resolve every `calls` name with edge type
`Calls` and every `types` name with edge type `References` (which
`add_dependency` maps to `Defines`).  The workspace scan is the oracle
`symbolCache`; prompt, completion, fence-stripping and JSON parse are the
oracle `llm`.  `fuzzyTargetCode` is step 1: the target block, falling back
to the raw line, or the error for a line past the end of the file. -/
def fuzzyTargetCode (w : SliceWorld) (content : String)
    (target_line : Nat) : Except String String :=
  match w.extractBlock content target_line 0 with
  | some code => .ok code
  | none =>
    let lines := strLines content
    if target_line < lines.length then .ok (lines.getD target_line "")
    else .error ("Failed to extract target block at line "
      ++ toString target_line)

def FuzzySlicer.slice (w : SliceWorld) (target_file : String)
    (target_line : Nat) (target_col : Nat) : Except String DependencyGraph :=
  match w.fs target_file with
  | none => .error ("failed to read " ++ target_file)
  | some content =>
    match fuzzyTargetCode w content target_line with
    | .error e => .error e
    | .ok target_code =>
      let target_id : NodeId := ⟨target_file, target_line, target_col⟩
      let g := DependencyGraph.empty.add_node ⟨target_id, target_code, "target"⟩
      match w.llm with
      | .error e => .error e
      | .ok analysis =>
        let g := analysis.calls.foldl
          (fun g name =>
            add_dependency w.symbolCache g target_id name EdgeType.Calls) g
        let g := analysis.types.foldl
          (fun g name =>
            add_dependency w.symbolCache g target_id name EdgeType.References) g
        .ok g

/-- `Slicer::build_graph` (`slicer.rs`, lines 68–240): delegate to the
fuzzy slicer when the backend reports any Error-severity diagnostic for the
target file, otherwise build the strict graph — target node, reference
nodes/edges, definition nodes/edges and reachability-pruned outgoing calls.
`did_open` and the 2-second diagnostics grace sleep have no effect on the
returned graph and are omitted from the model. -/
def Slicer.build_graph (w : SliceWorld) (target_file : String)
    (target_line : Nat) (target_col : Nat) : Except String DependencyGraph :=
  if w.diagnosticsErrors target_file > 0 then
    FuzzySlicer.slice w target_file target_line target_col
  else
    let target_id : NodeId := ⟨target_file, target_line, target_col⟩
    match read_location w target_file target_line with
    | .error e => .error e
    | .ok code =>
      let g := DependencyGraph.empty.add_node ⟨target_id, code, "target"⟩
      match (w.references target_file target_line target_col).foldlM
          (processRef w target_id) g with
      | .error e => .error e
      | .ok g =>
        (w.definitions target_file target_line target_col).foldlM
          (processDef w target_id) g

/-- The retry signal of `LspClient::request` (`lsp_client.rs`, line 188):
the error text contains `"content modified"` or `"-32801"`. -/
def isContentModified (e : String) : Bool :=
  strContains e "content modified" || strContains e "-32801"

/-- The retry loop of `LspClient::request` (`lsp_client.rs`, lines 158–196),
with an explicit fuel parameter for termination: `responses n` is the
backend's answer to the `n`-th send (`attempts` is incremented before each
send, so sends are numbered from 1); a success returns immediately; an error
is retried only while `attempts < 5` and the error carries the
content-modified signal (the back-off sleep has no effect on the returned
value).  Returns the result paired with the number of sends made.  The fuel
`lspRequest` supplies is ample (`requestLoop_fuel_stable`), so the zero-fuel
branch is never taken. -/
def requestLoop (responses : Nat → Except String String) :
    Nat → Nat → Except String String × Nat
  | 0, attempts =>
    match responses attempts with
    | .ok v => (.ok v, attempts)
    | .error e => (.error e, attempts)
  | fuel + 1, attempts =>
    match responses attempts with
    | .ok v => (.ok v, attempts)
    | .error e =>
      if attempts < 5 ∧ isContentModified e then
        requestLoop responses fuel (attempts + 1)
      else (.error e, attempts)

/-- `LspClient::request`: the loop entered with `attempts = 1` (and fuel
covering every reachable iteration). -/
def lspRequest (responses : Nat → Except String String) :
    Except String String × Nat :=
  requestLoop responses 5 1

/-- The edge (if any) `FuzzySlicer::add_dependency` appends for one name:
empty when the name is not in the cache, else a single edge to the first
cached definition, `Calls` staying `Calls` and anything else becoming
`Defines`.  `mapEdgeType` is the edge-type mapping of `add_dependency`:
`Calls` stays `Calls`, anything else becomes `Defines`. -/
def mapEdgeType : EdgeType → EdgeType
  | EdgeType.Calls => EdgeType.Calls
  | _ => EdgeType.Defines

def fuzzyEdgeOf (cache : String → List LocatedSymbol) (target_id : NodeId)
    (edge_type : EdgeType) (name : String) : List Edge :=
  match (cache name).head? with
  | none => []
  | some d => [⟨target_id, ⟨d.file, d.info.line, 0⟩, mapEdgeType edge_type⟩]

/-- The edges appended by a run of `add_dependency` over a name list. -/
def fuzzyEdges (cache : String → List LocatedSymbol) (target_id : NodeId)
    (edge_type : EdgeType) : List String → List Edge
  | [] => []
  | n :: ns =>
    fuzzyEdgeOf cache target_id edge_type n
      ++ fuzzyEdges cache target_id edge_type ns

theorem maxListI_le {n : Int} {a : Int} {l : List Int}
    (ha : a ≤ n) (h : ∀ y ∈ l, y ≤ n) : maxListI a l ≤ n := by
  induction l generalizing a with
  | nil => exact ha
  | cons b l ih =>
    exact ih (max_le ha (h b (List.mem_cons_self b l)))
      (fun y hy => h y (List.mem_cons_of_mem b hy))

theorem le_maxListI {a : Int} {l : List Int} :
    (a ≤ maxListI a l) ∧ ∀ y ∈ l, y ≤ maxListI a l := by
  induction l generalizing a with
  | nil => exact ⟨le_refl a, by simp⟩
  | cons b l ih =>
    refine ⟨le_trans (le_max_left a b) (ih (a := max a b)).1, ?_⟩
    intro y hy
    rcases List.mem_cons.mp hy with h | h
    · subst h; exact le_trans (le_max_right a y) (ih (a := max a y)).1
    · exact (ih (a := max a b)).2 y h

theorem minListI_le {a : Int} {l : List Int} :
    (minListI a l ≤ a) ∧ ∀ y ∈ l, minListI a l ≤ y := by
  induction l generalizing a with
  | nil => exact ⟨le_refl a, by simp⟩
  | cons b l ih =>
    refine ⟨le_trans (ih (a := min a b)).1 (min_le_left a b), ?_⟩
    intro y hy
    rcases List.mem_cons.mp hy with h | h
    · subst h; exact le_trans (ih (a := min a y)).1 (min_le_right a y)
    · exact (ih (a := min a b)).2 y h

theorem mem_eqsOf {l : List (String × Int)} {v : Int} :
    v ∈ eqsOf l ↔ ∃ p ∈ l, p.1 = "==" ∧ p.2 = v := by
  simp only [eqsOf, List.mem_filterMap]
  constructor
  · rintro ⟨p, hp, hv⟩
    by_cases h : p.1 = "=="
    · simp only [h, if_pos] at hv
      exact ⟨p, hp, h, Option.some.inj hv⟩
    · simp [h] at hv
  · rintro ⟨p, hp, h1, h2⟩
    exact ⟨p, hp, by simp [h1, h2]⟩

theorem mem_neqsOf {l : List (String × Int)} {v : Int} :
    v ∈ neqsOf l ↔ ∃ p ∈ l, p.1 = "!=" ∧ p.2 = v := by
  simp only [neqsOf, List.mem_filterMap]
  constructor
  · rintro ⟨p, hp, hv⟩
    by_cases h : p.1 = "!="
    · simp only [h, if_pos] at hv
      exact ⟨p, hp, h, Option.some.inj hv⟩
    · simp [h] at hv
  · rintro ⟨p, hp, h1, h2⟩
    exact ⟨p, hp, by simp [h1, h2]⟩

theorem mem_lowsOf {l : List (String × Int)} {v : Int} :
    v ∈ lowsOf l ↔ ∃ p ∈ l, (p.1 = ">" ∧ v = p.2 + 1) ∨ (p.1 = ">=" ∧ v = p.2) := by
  simp only [lowsOf, List.mem_filterMap]
  constructor
  · rintro ⟨p, hp, hv⟩
    by_cases h : p.1 = ">"
    · simp only [h, if_pos] at hv
      exact ⟨p, hp, Or.inl ⟨h, (Option.some.inj hv).symm⟩⟩
    · by_cases h2 : p.1 = ">="
      · simp only [h, h2, if_neg, if_pos] at hv
        exact ⟨p, hp, Or.inr ⟨h2, (Option.some.inj hv).symm⟩⟩
      · simp [h, h2] at hv
  · rintro ⟨p, hp, h⟩
    rcases h with ⟨h1, h2⟩ | ⟨h1, h2⟩
    · exact ⟨p, hp, by simp [h1, h2]⟩
    · refine ⟨p, hp, ?_⟩
      have hne : p.1 ≠ ">" := by simp [h1]
      simp [h1, hne, h2]

theorem mem_hisOf {l : List (String × Int)} {v : Int} :
    v ∈ hisOf l ↔ ∃ p ∈ l, (p.1 = "<" ∧ v = p.2 - 1) ∨ (p.1 = "<=" ∧ v = p.2) := by
  simp only [hisOf, List.mem_filterMap]
  constructor
  · rintro ⟨p, hp, hv⟩
    by_cases h : p.1 = "<"
    · simp only [h, if_pos] at hv
      exact ⟨p, hp, Or.inl ⟨h, (Option.some.inj hv).symm⟩⟩
    · by_cases h2 : p.1 = "<="
      · simp only [h, h2, if_neg, if_pos] at hv
        exact ⟨p, hp, Or.inr ⟨h2, (Option.some.inj hv).symm⟩⟩
      · simp [h, h2] at hv
  · rintro ⟨p, hp, h⟩
    rcases h with ⟨h1, h2⟩ | ⟨h1, h2⟩
    · exact ⟨p, hp, by simp [h1, h2]⟩
    · refine ⟨p, hp, ?_⟩
      have hne : p.1 ≠ "<" := by simp [h1]
      simp [h1, hne, h2]

theorem allHoldB_mem {n : Int} {l : List (String × Int)} {p : String × Int}
    (h : allHoldB n l = true) (hp : p ∈ l) : opHolds n p.1 p.2 = true := by
  exact List.all_eq_true.mp h p hp

theorem lows_le_of_allHold {n : Int} {l : List (String × Int)}
    (h : allHoldB n l = true) : ∀ y ∈ lowsOf l, y ≤ n := by
  intro y hy
  rcases mem_lowsOf.mp hy with ⟨p, hp, ⟨h1, h2⟩ | ⟨h1, h2⟩⟩
  · have hh := allHoldB_mem h hp
    rw [h1] at hh
    simp [opHolds] at hh
    omega
  · have hh := allHoldB_mem h hp
    rw [h1] at hh
    simp [opHolds] at hh
    omega

theorem his_ge_of_allHold {n : Int} {l : List (String × Int)}
    (h : allHoldB n l = true) : ∀ y ∈ hisOf l, n ≤ y := by
  intro y hy
  rcases mem_hisOf.mp hy with ⟨p, hp, ⟨h1, h2⟩ | ⟨h1, h2⟩⟩
  · have hh := allHoldB_mem h hp
    rw [h1] at hh
    simp [opHolds] at hh
    omega
  · have hh := allHoldB_mem h hp
    rw [h1] at hh
    simp [opHolds] at hh
    omega

theorem no_eq_ops {l : List (String × Int)} (h : eqsOf l = []) :
    ∀ p ∈ l, p.1 ≠ "==" := by
  intro p hp hcon
  have hmem : p.2 ∈ eqsOf l := mem_eqsOf.mpr ⟨p, hp, hcon, rfl⟩
  rw [h] at hmem
  exact absurd hmem (List.not_mem_nil _)

/-- A value between all lower and upper bounds, avoiding all disequality
values, satisfies every constraint of an equality-free single-variable set. -/
theorem allHold_of_bounds {c : Int} {l : List (String × Int)}
    (heq : eqsOf l = [])
    (hlow : ∀ y ∈ lowsOf l, y ≤ c)
    (hhi : ∀ y ∈ hisOf l, c ≤ y)
    (hne : ∀ v ∈ neqsOf l, c ≠ v) :
    allHoldB c l = true := by
  refine List.all_eq_true.mpr (fun p hp => ?_)
  by_cases hgt : p.1 = ">"
  · have := hlow _ (mem_lowsOf.mpr ⟨p, hp, Or.inl ⟨hgt, rfl⟩⟩)
    simp [opHolds, hgt]
    omega
  by_cases hlt : p.1 = "<"
  · have := hhi _ (mem_hisOf.mpr ⟨p, hp, Or.inl ⟨hlt, rfl⟩⟩)
    simp [opHolds, hgt, hlt]
    omega
  by_cases hge : p.1 = ">="
  · have := hlow _ (mem_lowsOf.mpr ⟨p, hp, Or.inr ⟨hge, rfl⟩⟩)
    simp [opHolds, hgt, hlt, hge]
    omega
  by_cases hle : p.1 = "<="
  · have := hhi _ (mem_hisOf.mpr ⟨p, hp, Or.inr ⟨hle, rfl⟩⟩)
    simp [opHolds, hgt, hlt, hge, hle]
    omega
  by_cases heqop : p.1 = "=="
  · exact absurd heqop (no_eq_ops heq p hp)
  by_cases hneop : p.1 = "!="
  · have := hne _ (mem_neqsOf.mpr ⟨p, hp, hneop, rfl⟩)
    simp [opHolds, hgt, hlt, hge, hle, heqop, hneop, this]
  · simp [opHolds, hgt, hlt, hge, hle, heqop, hneop]

theorem satOne_eqs {l : List (String × Int)} {e : Int} {es : List Int}
    (heq : eqsOf l = e :: es) : satOne l = allHoldB e l := by
  unfold satOne
  rw [heq]

theorem satOne_no_lows {l : List (String × Int)}
    (heq : eqsOf l = []) (hlo : lowsOf l = []) : satOne l = true := by
  unfold satOne
  rw [heq, hlo]

theorem satOne_no_his {l : List (String × Int)} {lo0 : Int} {lows : List Int}
    (heq : eqsOf l = []) (hlo : lowsOf l = lo0 :: lows) (hhi : hisOf l = []) :
    satOne l = true := by
  unfold satOne
  rw [heq, hlo, hhi]

theorem satOne_bounds {l : List (String × Int)} {lo0 hi0 : Int}
    {lows his : List Int}
    (heq : eqsOf l = []) (hlo : lowsOf l = lo0 :: lows)
    (hhi : hisOf l = hi0 :: his) :
    satOne l =
      ((List.range ((neqsOf l).length + 1)).map
        (fun i : Nat => maxListI lo0 lows + (i : Int))).any (fun n => allHoldB n l) := by
  unfold satOne
  rw [heq, hlo, hhi]

theorem satOne_complete {l : List (String × Int)} {n : Int}
    (hn : allHoldB n l = true) : satOne l = true := by
  cases heq : eqsOf l with
  | cons e es =>
    rw [satOne_eqs heq]
    have he : e ∈ eqsOf l := by rw [heq]; exact List.mem_cons_self _ _
    rcases mem_eqsOf.mp he with ⟨p, hp, h1, h2⟩
    have hh := allHoldB_mem hn hp
    rw [h1] at hh
    simp [opHolds] at hh
    rw [show e = n by omega]
    exact hn
  | nil =>
    cases hlo : lowsOf l with
    | nil => exact satOne_no_lows heq hlo
    | cons lo0 lows =>
      cases hhi : hisOf l with
      | nil => exact satOne_no_his heq hlo hhi
      | cons hi0 his =>
        rw [satOne_bounds heq hlo hhi]
        rw [List.any_eq_true]
        have hlon : maxListI lo0 lows ≤ n := by
          apply maxListI_le
          · exact lows_le_of_allHold hn lo0 (by rw [hlo]; exact List.mem_cons_self _ _)
          · intro y hy
            exact lows_le_of_allHold hn y (by rw [hlo]; exact List.mem_cons_of_mem _ hy)
        set lo := maxListI lo0 lows with hlodef
        set k := (neqsOf l).length with hkdef
        by_cases hcase : n ≤ lo + k
        · refine ⟨n, ?_, hn⟩
          simp only [List.mem_map, List.mem_range]
          exact ⟨(n - lo).toNat, by omega, by omega⟩
        · by_contra hany
          have hsub : ((List.range (k + 1)).map (fun i : Nat => lo + (i : Int))) ⊆ neqsOf l := by
            intro x hx
            rw [List.mem_map] at hx
            obtain ⟨i, hi, rfl⟩ := hx
            by_contra hxn
            apply hany
            refine ⟨lo + i, List.mem_map.mpr ⟨i, hi, rfl⟩, ?_⟩
            apply allHold_of_bounds heq
            · intro y hy
              have hylo : y ≤ lo := by
                rw [hlo] at hy
                rcases List.mem_cons.mp hy with h | h
                · subst h; exact (le_maxListI (a := y) (l := lows)).1
                · exact (le_maxListI (a := lo0) (l := lows)).2 y h
              omega
            · intro y hy
              have h1 : n ≤ y := his_ge_of_allHold hn y hy
              have h2 : i < k + 1 := List.mem_range.mp hi
              omega
            · intro v hv heqv
              exact hxn (heqv ▸ hv)
          have hnodup : ((List.range (k + 1)).map (fun i : Nat => lo + (i : Int))).Nodup := by
            refine List.Nodup.map ?_ (List.nodup_range _)
            intro a b hab
            have hab2 : lo + (a : Int) = lo + (b : Int) := hab
            omega
          have hlen := (hnodup.subperm hsub).length_le
          simp at hlen

theorem satOne_sound {l : List (String × Int)}
    (h : satOne l = true) : ∃ n : Int, allHoldB n l = true := by
  cases heq : eqsOf l with
  | cons e es =>
    rw [satOne_eqs heq] at h
    exact ⟨e, h⟩
  | nil =>
    cases hlo : lowsOf l with
    | nil =>
      refine ⟨minListI 0 (hisOf l ++ neqsOf l) - 1, allHold_of_bounds heq ?_ ?_ ?_⟩
      · intro y hy; rw [hlo] at hy; exact absurd hy (List.not_mem_nil _)
      · intro y hy
        have := (minListI_le (a := 0) (l := hisOf l ++ neqsOf l)).2 y
          (List.mem_append_left _ hy)
        omega
      · intro v hv
        have := (minListI_le (a := 0) (l := hisOf l ++ neqsOf l)).2 v
          (List.mem_append_right _ hv)
        omega
    | cons lo0 lows =>
      cases hhi : hisOf l with
      | nil =>
        refine ⟨maxListI lo0 (lows ++ neqsOf l) + 1, allHold_of_bounds heq ?_ ?_ ?_⟩
        · intro y hy
          rw [hlo] at hy
          rcases List.mem_cons.mp hy with hc | hc
          · subst hc
            have := (le_maxListI (a := y) (l := lows ++ neqsOf l)).1
            omega
          · have := (le_maxListI (a := lo0) (l := lows ++ neqsOf l)).2 y
              (List.mem_append_left _ hc)
            omega
        · intro y hy; rw [hhi] at hy; exact absurd hy (List.not_mem_nil _)
        · intro v hv
          have := (le_maxListI (a := lo0) (l := lows ++ neqsOf l)).2 v
            (List.mem_append_right _ hv)
          omega
      | cons hi0 his =>
        rw [satOne_bounds heq hlo hhi, List.any_eq_true] at h
        obtain ⟨x, _, hall⟩ := h
        exact ⟨x, hall⟩

theorem satOne_iff (l : List (String × Int)) :
    satOne l = true ↔ ∃ n : Int, allHoldB n l = true :=
  ⟨satOne_sound, fun ⟨_, hn⟩ => satOne_complete hn⟩

theorem mem_constraintsFor {x : String} {cs : List (String × String × Int)}
    {q : String × Int} :
    q ∈ constraintsFor x cs ↔ ∃ c ∈ cs, c.1 = x ∧ q = (c.2.1, c.2.2) := by
  simp only [constraintsFor, List.mem_filterMap]
  constructor
  · rintro ⟨c, hc, hq⟩
    by_cases h : c.1 = x
    · simp only [h, if_pos] at hq
      exact ⟨c, hc, h, (Option.some.inj hq).symm⟩
    · simp [h] at hq
  · rintro ⟨c, hc, h1, h2⟩
    exact ⟨c, hc, by simp [h1, h2]⟩

theorem checkSat_iff_sat (cs : List (String × String × Int)) :
    checkSat cs = true ↔ ∃ f : String → Int, ∀ c ∈ cs, cHolds f c = true := by
  constructor
  · intro h
    classical
    refine ⟨fun x =>
      if hx : ∃ n : Int, allHoldB n (constraintsFor x cs) = true then hx.choose
      else 0, ?_⟩
    intro c hc
    have hx : c.1 ∈ varsOf cs :=
      List.mem_dedup.mpr (List.mem_map.mpr ⟨c, hc, rfl⟩)
    have hex : ∃ n : Int, allHoldB n (constraintsFor c.1 cs) = true :=
      satOne_sound (List.all_eq_true.mp h c.1 hx)
    have hfval : allHoldB
        (if hx2 : ∃ n : Int, allHoldB n (constraintsFor c.1 cs) = true then
          hx2.choose else 0)
        (constraintsFor c.1 cs) = true := by
      rw [dif_pos hex]
      exact hex.choose_spec
    have hq : ((c.2.1, c.2.2) : String × Int) ∈ constraintsFor c.1 cs :=
      mem_constraintsFor.mpr ⟨c, hc, rfl, rfl⟩
    exact allHoldB_mem hfval hq
  · rintro ⟨f, hf⟩
    refine List.all_eq_true.mpr (fun x hx => ?_)
    apply satOne_complete (n := f x)
    refine List.all_eq_true.mpr (fun q hq => ?_)
    rcases mem_constraintsFor.mp hq with ⟨c, hc, h1, h2⟩
    have := hf c hc
    unfold cHolds at this
    rw [h1] at this
    rw [h2]
    exact this

theorem cHolds_unsupported {f : String → Int} {c : String × String × Int}
    (h : supportedOp c.2.1 = false) : cHolds f c = true := by
  simp only [supportedOp, Bool.or_eq_false_iff, decide_eq_false_iff_not] at h
  obtain ⟨⟨⟨⟨⟨h1, h2⟩, h3⟩, h4⟩, h5⟩, h6⟩ := h
  simp [cHolds, opHolds, h1, h2, h3, h4, h5, h6]

theorem check_consistency_iff_sat (cs : List (String × String × Int)) :
    check_consistency cs = true ↔
      ∃ f : String → Int, ∀ c ∈ cs, cHolds f c = true := by
  unfold check_consistency
  rw [checkSat_iff_sat]
  constructor
  · rintro ⟨f, hf⟩
    refine ⟨f, fun c hc => ?_⟩
    by_cases h : supportedOp c.2.1
    · exact hf c (List.mem_filter.mpr ⟨hc, h⟩)
    · exact cHolds_unsupported (Bool.eq_false_iff.mpr h)
  · rintro ⟨f, hf⟩
    exact ⟨f, fun c hc => hf c (List.mem_of_mem_filter hc)⟩

/-- C3: the verifier laws (P7): `check_consistency([])` is true; a single
equality constraint is always consistent; and
`verify_integer_reachability([(x,">",a)], (x,"<",b))` returns true exactly
when `b > a+1` (there is an integer strictly between `a` and `b`). -/
theorem claim_C3_verifier_laws :
    check_consistency [] = true
    ∧ (∀ (x : String) (v : Int), check_consistency [(x, "==", v)] = true)
    ∧ (∀ (x : String) (a b : Int),
        verify_integer_reachability [(x, ">", a)] (x, "<", b) = .ok true
          ↔ b > a + 1) := by
  refine ⟨by decide, ?_, ?_⟩
  · intro x v
    rw [check_consistency_iff_sat]
    refine ⟨fun _ => v, ?_⟩
    intro c hc
    rcases List.mem_singleton.mp hc with rfl
    simp [cHolds, opHolds]
  · intro x a b
    have h1 : verify_integer_reachability [(x, ">", a)] (x, "<", b)
        = .ok (checkSat [(x, ">", a), (x, "<", b)]) := by
      simp [verify_integer_reachability, supportedOp, List.find?]
    rw [h1]
    constructor
    · intro h
      have h2 : checkSat [(x, ">", a), (x, "<", b)] = true := by
        exact Except.ok.inj h
      rw [checkSat_iff_sat] at h2
      obtain ⟨f, hf⟩ := h2
      have ha := hf _ (List.mem_cons_self _ _)
      have hb := hf _ (List.mem_cons_of_mem _ (List.mem_cons_self _ _))
      simp [cHolds, opHolds] at ha hb
      omega
    · intro h
      have h2 : checkSat [(x, ">", a), (x, "<", b)] = true := by
        rw [checkSat_iff_sat]
        refine ⟨fun _ => a + 1, ?_⟩
        intro c hc
        rcases List.mem_cons.mp hc with rfl | hc2
        · simp [cHolds, opHolds]
        rcases List.mem_singleton.mp hc2 with rfl
        simp [cHolds, opHolds]
        omega
      rw [h2]

/-- C8: an operator outside the closed set is skipped by
`check_consistency`, whose verdict is then computed from the remaining
constraints alone, while `verify_integer_reachability` fails with an
"Unsupported operator" error, whether the operator occurs in the constraint
list or in the target. -/
theorem claim_C8_unsupported_operators :
    (∀ (pre post : List (String × String × Int)) (c : String × String × Int),
        supportedOp c.2.1 = false →
        check_consistency (pre ++ c :: post) = check_consistency (pre ++ post))
    ∧ (∀ (cs : List (String × String × Int)) (c t : String × String × Int),
        c ∈ cs → supportedOp c.2.1 = false →
        ∃ op : String,
          verify_integer_reachability cs t = .error ("Unsupported operator: " ++ op)
          ∧ supportedOp op = false)
    ∧ (∀ (cs : List (String × String × Int)) (t : String × String × Int),
        (∀ c ∈ cs, supportedOp c.2.1 = true) → supportedOp t.2.1 = false →
        verify_integer_reachability cs t
          = .error ("Unsupported operator: " ++ t.2.1)) := by
  refine ⟨?_, ?_, ?_⟩
  · intro pre post c hc
    unfold check_consistency
    rw [List.filter_append, List.filter_append, List.filter_cons_of_neg]
    simp [hc]
  · intro cs c t hmem hc
    have hsome : (cs.find? (fun d => !supportedOp d.2.1)).isSome := by
      rw [List.find?_isSome]
      exact ⟨c, hmem, by simp [hc]⟩
    obtain ⟨c', hc'⟩ := Option.isSome_iff_exists.mp hsome
    refine ⟨c'.2.1, ?_, ?_⟩
    · unfold verify_integer_reachability
      rw [hc']
    · have := List.find?_some hc'
      simpa using this
  · intro cs t hall ht
    have hnone : cs.find? (fun d => !supportedOp d.2.1) = none := by
      rw [List.find?_eq_none]
      intro c hc
      simp [hall c hc]
    unfold verify_integer_reachability
    rw [hnone]
    simp [ht]

/-- Witness for C8 at concrete inputs: the operator `"^"` is outside the
closed set; `check_consistency` skips it and `verify_integer_reachability`
rejects it on either side. -/
theorem claim_C8_witness :
    check_consistency [("x", "^", 1), ("x", ">", 3)] = check_consistency [("x", ">", 3)]
    ∧ (∃ op : String,
        verify_integer_reachability [("x", "^", 1)] ("x", "<", 5)
          = .error ("Unsupported operator: " ++ op) ∧ supportedOp op = false)
    ∧ verify_integer_reachability [("x", ">", 3)] ("x", "^", 5)
        = .error ("Unsupported operator: " ++ "^") := by
  refine ⟨?_, ?_, ?_⟩
  · exact claim_C8_unsupported_operators.1 [] [("x", ">", 3)] ("x", "^", 1) (by decide)
  · exact claim_C8_unsupported_operators.2.1 [("x", "^", 1)] ("x", "^", 1) ("x", "<", 5)
      (List.mem_singleton.mpr rfl) (by decide)
  · exact claim_C8_unsupported_operators.2.2 [("x", ">", 3)] ("x", "^", 5)
      (by intro c hc; rcases List.mem_singleton.mp hc with rfl; decide) (by decide)

/-- Witness for C3 at concrete inputs. -/
theorem claim_C3_witness :
    check_consistency [("x", "==", 42)] = true
    ∧ (verify_integer_reachability [("x", ">", 3)] ("x", "<", 5) = .ok true
        ↔ (5 : Int) > 3 + 1) :=
  ⟨claim_C3_verifier_laws.2.1 "x" 42, claim_C3_verifier_laws.2.2 "x" 3 5⟩

theorem expandEdges_visited_subset {id : NodeId} {d : Nat} :
    ∀ (es : List Edge) (v : List NodeId) (x : NodeId), x ∈ v →
      x ∈ (expandEdges id d es v).1 := by
  intro es
  induction es with
  | nil => intro v x hx; exact hx
  | cons e es ih =>
    intro v x hx
    by_cases hc : e.from_ = id ∧ ¬ e.to_ ∈ v
    · simp only [expandEdges, if_pos hc]
      exact ih _ x (List.mem_cons_of_mem _ hx)
    · simp only [expandEdges, if_neg hc]
      exact ih _ x hx

theorem expandEdges_pushes {id : NodeId} {d : Nat} :
    ∀ (es : List Edge) (v : List NodeId) (p : NodeId × Nat),
      p ∈ (expandEdges id d es v).2 →
      p.2 = d + 1 ∧ p.1 ∈ (expandEdges id d es v).1 ∧ ¬ p.1 ∈ v
        ∧ ∃ e ∈ es, e.to_ = p.1 ∧ e.from_ = id := by
  intro es
  induction es with
  | nil => intro v p hp; exact absurd hp (List.not_mem_nil _)
  | cons e es ih =>
    intro v p hp
    by_cases hc : e.from_ = id ∧ ¬ e.to_ ∈ v
    · simp only [expandEdges, if_pos hc] at hp ⊢
      rcases List.mem_cons.mp hp with rfl | hp2
      · refine ⟨rfl, ?_, hc.2, ⟨e, List.mem_cons_self _ _, rfl, hc.1⟩⟩
        exact expandEdges_visited_subset es _ _ (List.mem_cons_self _ _)
      · obtain ⟨h1, h2, h3, e', he', h4, h5⟩ := ih _ p hp2
        refine ⟨h1, h2, fun hv => h3 (List.mem_cons_of_mem _ hv),
          ⟨e', List.mem_cons_of_mem _ he', h4, h5⟩⟩
    · simp only [expandEdges, if_neg hc] at hp ⊢
      obtain ⟨h1, h2, h3, e', he', h4, h5⟩ := ih _ p hp
      exact ⟨h1, h2, h3, ⟨e', List.mem_cons_of_mem _ he', h4, h5⟩⟩

theorem expandEdges_pushes_nodup {id : NodeId} {d : Nat} :
    ∀ (es : List Edge) (v : List NodeId),
      ((expandEdges id d es v).2.map Prod.fst).Nodup := by
  intro es
  induction es with
  | nil => intro v; exact List.nodup_nil
  | cons e es ih =>
    intro v
    by_cases hc : e.from_ = id ∧ ¬ e.to_ ∈ v
    · simp only [expandEdges, if_pos hc, List.map_cons]
      rw [List.nodup_cons]
      refine ⟨?_, ih _⟩
      intro hmem
      rcases List.mem_map.mp hmem with ⟨p, hp, hp1⟩
      have := (expandEdges_pushes es _ p hp).2.2.1
      exact this (hp1 ▸ List.mem_cons_self _ _)
    · simp only [expandEdges, if_neg hc]
      exact ih _

theorem expandEdges_visited_from {id : NodeId} {d : Nat} :
    ∀ (es : List Edge) (v : List NodeId) (x : NodeId),
      x ∈ (expandEdges id d es v).1 →
      x ∈ v ∨ (x, d + 1) ∈ (expandEdges id d es v).2 := by
  intro es
  induction es with
  | nil => intro v x hx; exact Or.inl hx
  | cons e es ih =>
    intro v x hx
    by_cases hc : e.from_ = id ∧ ¬ e.to_ ∈ v
    · simp only [expandEdges, if_pos hc] at hx ⊢
      rcases ih _ x hx with hv | hpush
      · rcases List.mem_cons.mp hv with rfl | hv2
        · exact Or.inr (List.mem_cons_self _ _)
        · exact Or.inl hv2
      · exact Or.inr (List.mem_cons_of_mem _ hpush)
    · simp only [expandEdges, if_neg hc] at hx ⊢
      exact ih _ x hx

theorem expandEdges_follows {id : NodeId} {d : Nat} :
    ∀ (es : List Edge) (v : List NodeId) (e : Edge), e ∈ es → e.from_ = id →
      e.to_ ∈ (expandEdges id d es v).1 := by
  intro es
  induction es with
  | nil => intro v e he; exact absurd he (List.not_mem_nil _)
  | cons e0 es ih =>
    intro v e he hfrom
    rcases List.mem_cons.mp he with rfl | he2
    · by_cases hc : e.from_ = id ∧ ¬ e.to_ ∈ v
      · simp only [expandEdges, if_pos hc]
        exact expandEdges_visited_subset es _ _ (List.mem_cons_self _ _)
      · simp only [expandEdges, if_neg hc]
        have hv : e.to_ ∈ v := by
          by_contra hnv
          exact hc ⟨hfrom, hnv⟩
        exact expandEdges_visited_subset es _ _ hv
    · by_cases hc : e0.from_ = id ∧ ¬ e0.to_ ∈ v
      · simp only [expandEdges, if_pos hc]
        exact ih _ e he2 hfrom
      · simp only [expandEdges, if_neg hc]
        exact ih _ e he2 hfrom

theorem filter_notMem_cons_length {T : List NodeId} (hnd : T.Nodup) {x : NodeId}
    {v : List NodeId} (hxT : x ∈ T) (hxv : ¬ x ∈ v) :
    (T.filter (fun t => decide (t ∉ x :: v))).length + 1
      = (T.filter (fun t => decide (t ∉ v))).length := by
  induction T with
  | nil => cases hxT
  | cons y T ih =>
    rw [List.nodup_cons] at hnd
    rcases List.mem_cons.mp hxT with rfl | hxT2
    · simp only [List.filter_cons]
      have h1 : (decide (x ∉ x :: v)) = false := by simp
      have h2 : (decide (x ∉ v)) = true := by simp [hxv]
      rw [h1, h2, if_neg (by simp), if_pos rfl, List.length_cons]
      congr 1
      apply congrArg List.length
      apply List.filter_congr
      intro t ht
      have htx : t ≠ x := fun h => hnd.1 (h ▸ ht)
      simp [List.mem_cons, htx]
    · have hyx : y ≠ x := fun h => hnd.1 (h ▸ hxT2)
      simp only [List.filter_cons]
      have heq : decide (y ∉ x :: v) = decide (y ∉ v) := by
        simp [List.mem_cons, hyx]
      rw [heq]
      have ihres := ih hnd.2 hxT2
      cases h : decide (y ∉ v) with
      | true => rw [if_pos rfl, if_pos rfl, List.length_cons, List.length_cons]; omega
      | false => rw [if_neg (by simp), if_neg (by simp)]; omega

theorem expandEdges_measure (id : NodeId) (d : Nat) (edges : List Edge) :
    ∀ (es : List Edge) (v : List NodeId),
    (∀ e ∈ es, e.to_ ∈ (edges.map Edge.to_).dedup) →
    (expandEdges id d es v).2.length + unvisCount edges (expandEdges id d es v).1
      ≤ unvisCount edges v := by
  intro es
  induction es with
  | nil => intro v _; simp [expandEdges]
  | cons e es ih =>
    intro v hes
    by_cases hc : e.from_ = id ∧ ¬ e.to_ ∈ v
    · simp only [expandEdges, if_pos hc, List.length_cons]
      have hih := ih (e.to_ :: v) (fun e' he' => hes e' (List.mem_cons_of_mem _ he'))
      have hcnt := filter_notMem_cons_length (List.nodup_dedup _)
        (hes e (List.mem_cons_self _ _)) hc.2 (v := v)
      unfold unvisCount at hih ⊢
      omega
    · simp only [expandEdges, if_neg hc]
      exact ih v (fun e' he' => hes e' (List.mem_cons_of_mem _ he'))

theorem bfsLoop_fuel_stable (edges : List Edge) :
    ∀ (f1 f2 : Nat) (v : List NodeId) (q : List (NodeId × Nat)),
    q.length + unvisCount edges v ≤ f1 → q.length + unvisCount edges v ≤ f2 →
    bfsLoop edges f1 v q = bfsLoop edges f2 v q := by
  intro f1
  induction f1 with
  | zero =>
    intro f2 v q h1 h2
    have hq : q = [] := List.eq_nil_of_length_eq_zero (by omega)
    subst hq
    cases f2 <;> rfl
  | succ n ih =>
    intro f2 v q h1 h2
    cases q with
    | nil => cases f2 <;> rfl
    | cons p q' =>
      cases f2 with
      | zero => simp [List.length_cons] at h2
      | succ m =>
        obtain ⟨id, d⟩ := p
        simp only [bfsLoop]
        congr 1
        have hmeas := expandEdges_measure id d edges edges v
          (fun e he => List.mem_dedup.mpr (List.mem_map.mpr ⟨e, he, rfl⟩))
        apply ih
        · simp only [List.length_append, List.length_cons] at h1 ⊢
          omega
        · simp only [List.length_append, List.length_cons] at h2 ⊢
          omega

theorem unvisCount_le (edges : List Edge) (v : List NodeId) :
    unvisCount edges v ≤ edges.length := by
  unfold unvisCount
  calc (((edges.map Edge.to_).dedup).filter (fun t => decide (t ∉ v))).length
      ≤ ((edges.map Edge.to_).dedup).length := List.length_filter_le _ _
    _ ≤ (edges.map Edge.to_).length := (List.dedup_sublist _).length_le
    _ = edges.length := List.length_map _ _

/-- The fuel `edges.length + 1` chosen by `bfs_from` is ample: adding any
amount of extra fuel leaves the output unchanged, so the fuelled loop runs to
natural completion exactly like the source's `while` loop. -/
theorem bfs_from_fuel_stable (g : DependencyGraph) (root : NodeId) (extra : Nat) :
    bfsLoop g.edges (g.edges.length + 1 + extra) [root] [(root, 0)]
      = g.bfs_from root := by
  apply bfsLoop_fuel_stable
  · have := unvisCount_le g.edges [root]
    simp only [List.length_cons, List.length_nil]
    omega
  · have := unvisCount_le g.edges [root]
    simp only [List.length_cons, List.length_nil]
    omega

theorem bfsLoop_mem_sources (edges : List Edge) :
    ∀ (fuel : Nat) (v : List NodeId) (q : List (NodeId × Nat)) (p : NodeId × Nat),
      p ∈ bfsLoop edges fuel v q →
      p ∈ q ∨ ∃ e ∈ edges, e.to_ = p.1 := by
  intro fuel
  induction fuel with
  | zero =>
    intro v q p hp
    cases q with
    | nil => simp only [bfsLoop] at hp; exact absurd hp (List.not_mem_nil _)
    | cons hd tl => simp only [bfsLoop] at hp; exact absurd hp (List.not_mem_nil _)
  | succ n ih =>
    intro v q p hp
    cases q with
    | nil => simp only [bfsLoop] at hp; exact absurd hp (List.not_mem_nil _)
    | cons hd q' =>
      obtain ⟨id, d⟩ := hd
      simp only [bfsLoop] at hp
      rcases List.mem_cons.mp hp with rfl | hp2
      · exact Or.inl (List.mem_cons_self _ _)
      · rcases ih _ _ p hp2 with hq | hedge
        · rcases List.mem_append.mp hq with h | h
          · exact Or.inl (List.mem_cons_of_mem _ h)
          · obtain ⟨_, _, _, e, he, h4, _⟩ := expandEdges_pushes _ _ p h
            exact Or.inr ⟨e, he, h4⟩
        · exact Or.inr hedge

theorem bfsLoop_mem_fresh (edges : List Edge) :
    ∀ (fuel : Nat) (v : List NodeId) (q : List (NodeId × Nat)) (p : NodeId × Nat),
      p ∈ bfsLoop edges fuel v q →
      p.1 ∈ q.map Prod.fst ∨ ¬ p.1 ∈ v := by
  intro fuel
  induction fuel with
  | zero =>
    intro v q p hp
    cases q with
    | nil => simp only [bfsLoop] at hp; exact absurd hp (List.not_mem_nil _)
    | cons hd tl => simp only [bfsLoop] at hp; exact absurd hp (List.not_mem_nil _)
  | succ n ih =>
    intro v q p hp
    cases q with
    | nil => simp only [bfsLoop] at hp; exact absurd hp (List.not_mem_nil _)
    | cons hd q' =>
      obtain ⟨id, d⟩ := hd
      simp only [bfsLoop] at hp
      rcases List.mem_cons.mp hp with rfl | hp2
      · exact Or.inl (by simp)
      · rcases ih _ _ p hp2 with hq | hnv
        · rw [List.map_append] at hq
          rcases List.mem_append.mp hq with h | h
          · exact Or.inl (List.mem_cons_of_mem _ h)
          · rcases List.mem_map.mp h with ⟨pp, hpp, hpp1⟩
            have := (expandEdges_pushes _ _ pp hpp).2.2.1
            exact Or.inr (hpp1 ▸ this)
        · refine Or.inr (fun hv => hnv ?_)
          exact expandEdges_visited_subset _ _ _ hv

theorem bfsLoop_nodup (edges : List Edge) :
    ∀ (fuel : Nat) (v : List NodeId) (q : List (NodeId × Nat)),
      (q.map Prod.fst).Nodup → (∀ x ∈ q.map Prod.fst, x ∈ v) →
      ((bfsLoop edges fuel v q).map Prod.fst).Nodup := by
  intro fuel
  induction fuel with
  | zero =>
    intro v q _ _
    cases q with
    | nil => simp [bfsLoop]
    | cons hd tl => simp [bfsLoop]
  | succ n ih =>
    intro v q hnd hsub
    cases q with
    | nil => simp [bfsLoop]
    | cons hd q' =>
      obtain ⟨id, d⟩ := hd
      simp only [bfsLoop, List.map_cons]
      rw [List.nodup_cons]
      simp only [List.map_cons, List.nodup_cons] at hnd
      have hidv : id ∈ v := hsub id (by simp)
      constructor
      · intro hmem
        rcases List.mem_map.mp hmem with ⟨p, hp, hp1⟩
        rcases bfsLoop_mem_fresh edges n _ _ p hp with hq | hnv
        · rw [List.map_append] at hq
          rcases List.mem_append.mp hq with h | h
          · exact hnd.1 (hp1 ▸ h)
          · rcases List.mem_map.mp h with ⟨pp, hpp, hpp1⟩
            have := (expandEdges_pushes _ _ pp hpp).2.2.1
            rw [hpp1, hp1] at this
            exact this hidv
        · refine hnv ?_
          rw [hp1]
          exact expandEdges_visited_subset _ _ _ hidv
      · apply ih
        · rw [List.map_append]
          apply List.Nodup.append hnd.2 (expandEdges_pushes_nodup _ _)
          intro x hx1 hx2
          rcases List.mem_map.mp hx2 with ⟨pp, hpp, hpp1⟩
          have := (expandEdges_pushes _ _ pp hpp).2.2.1
          rw [hpp1] at this
          exact this (hsub x (List.mem_cons_of_mem _ hx1))
        · intro x hx
          rw [List.map_append] at hx
          rcases List.mem_append.mp hx with h | h
          · exact expandEdges_visited_subset _ _ _ (hsub x (List.mem_cons_of_mem _ h))
          · rcases List.mem_map.mp h with ⟨pp, hpp, hpp1⟩
            exact hpp1 ▸ (expandEdges_pushes _ _ pp hpp).2.1

theorem bfsLoop_dist_lb (edges : List Edge) :
    ∀ (fuel : Nat) (v : List NodeId) (q : List (NodeId × Nat)) (d0 : Nat),
      (∀ p ∈ q, d0 ≤ p.2) →
      ∀ p ∈ bfsLoop edges fuel v q, d0 ≤ p.2 := by
  intro fuel
  induction fuel with
  | zero =>
    intro v q d0 _ p hp
    cases q with
    | nil => simp only [bfsLoop] at hp; exact absurd hp (List.not_mem_nil _)
    | cons hd tl => simp only [bfsLoop] at hp; exact absurd hp (List.not_mem_nil _)
  | succ n ih =>
    intro v q d0 hq p hp
    cases q with
    | nil => simp only [bfsLoop] at hp; exact absurd hp (List.not_mem_nil _)
    | cons hd q' =>
      obtain ⟨id, d⟩ := hd
      simp only [bfsLoop] at hp
      rcases List.mem_cons.mp hp with rfl | hp2
      · exact hq _ (List.mem_cons_self _ _)
      · refine ih _ _ d0 ?_ p hp2
        intro p2 hp2'
        rcases List.mem_append.mp hp2' with h | h
        · exact hq p2 (List.mem_cons_of_mem _ h)
        · have hd0 : d0 ≤ d := hq _ (List.mem_cons_self _ _)
          have := (expandEdges_pushes _ _ p2 h).1
          omega

theorem sorted_of_const {c : Nat} :
    ∀ {l : List Nat}, (∀ x ∈ l, x = c) → l.Sorted (· ≤ ·) := by
  intro l
  induction l with
  | nil => intro _; exact List.sorted_nil
  | cons a l ih =>
    intro h
    rw [List.sorted_cons]
    refine ⟨?_, ih (fun x hx => h x (List.mem_cons_of_mem _ hx))⟩
    intro b hb
    rw [h a (List.mem_cons_self _ _), h b (List.mem_cons_of_mem _ hb)]

theorem bfsLoop_sorted (edges : List Edge) :
    ∀ (fuel : Nat) (v : List NodeId) (q : List (NodeId × Nat)),
      (q.map Prod.snd).Sorted (· ≤ ·) →
      (∀ p ∈ q, ∀ p2 ∈ q, p.2 ≤ p2.2 + 1) →
      ((bfsLoop edges fuel v q).map Prod.snd).Sorted (· ≤ ·) := by
  intro fuel
  induction fuel with
  | zero =>
    intro v q _ _
    cases q with
    | nil => simp [bfsLoop]
    | cons hd tl => simp [bfsLoop]
  | succ n ih =>
    intro v q hsor hstep
    cases q with
    | nil => simp [bfsLoop]
    | cons hd q' =>
      obtain ⟨id, d⟩ := hd
      simp only [bfsLoop, List.map_cons]
      rw [List.sorted_cons]
      simp only [List.map_cons, List.sorted_cons] at hsor
      have hq'lb : ∀ p ∈ q', d ≤ p.2 := by
        intro p hp
        exact hsor.1 p.2 (List.mem_map.mpr ⟨p, hp, rfl⟩)
      have hq'ub : ∀ p ∈ q', p.2 ≤ d + 1 := by
        intro p hp
        exact hstep p (List.mem_cons_of_mem _ hp) (id, d) (List.mem_cons_self _ _)
      constructor
      · intro b hb
        rcases List.mem_map.mp hb with ⟨p, hp, hp2⟩
        rw [← hp2]
        refine bfsLoop_dist_lb edges n _ _ d ?_ p hp
        intro p2 hp2'
        rcases List.mem_append.mp hp2' with h | h
        · exact hq'lb p2 h
        · have := (expandEdges_pushes _ _ p2 h).1
          omega
      · apply ih
        · rw [List.map_append]
          unfold List.Sorted
          rw [List.pairwise_append]
          refine ⟨hsor.2, ?_, ?_⟩
          · apply sorted_of_const (c := d + 1)
            intro x hx
            rcases List.mem_map.mp hx with ⟨pp, hpp, hpp2⟩
            rw [← hpp2]
            exact (expandEdges_pushes _ _ pp hpp).1
          · intro x hx y hy
            rcases List.mem_map.mp hx with ⟨px, hpx, hpx2⟩
            rcases List.mem_map.mp hy with ⟨py, hpy, hpy2⟩
            have h1 : px.2 ≤ d + 1 := hq'ub px hpx
            have h2 := (expandEdges_pushes _ _ py hpy).1
            omega
        · intro p hp p2 hp2
          rcases List.mem_append.mp hp with h | h
          · rcases List.mem_append.mp hp2 with h' | h'
            · have := hq'ub p h
              have := hq'lb p2 h'
              omega
            · have := hq'ub p h
              have := (expandEdges_pushes _ _ p2 h').1
              omega
          · rcases List.mem_append.mp hp2 with h' | h'
            · have := (expandEdges_pushes _ _ p h).1
              have := hq'lb p2 h'
              omega
            · have := (expandEdges_pushes _ _ p h).1
              have := (expandEdges_pushes _ _ p2 h').1
              omega

theorem bfsLoop_queue_subset (edges : List Edge) :
    ∀ (fuel : Nat) (v : List NodeId) (q : List (NodeId × Nat)),
      q.length + unvisCount edges v ≤ fuel →
      ∀ p ∈ q, p ∈ bfsLoop edges fuel v q := by
  intro fuel
  induction fuel with
  | zero =>
    intro v q hf p hp
    have : q = [] := List.eq_nil_of_length_eq_zero (by omega)
    subst this
    exact absurd hp (List.not_mem_nil _)
  | succ n ih =>
    intro v q hf p hp
    cases q with
    | nil => exact absurd hp (List.not_mem_nil _)
    | cons hd q' =>
      obtain ⟨id, d⟩ := hd
      simp only [bfsLoop]
      rcases List.mem_cons.mp hp with rfl | hp2
      · exact List.mem_cons_self _ _
      · have hmeas := expandEdges_measure id d edges edges v
          (fun e he => List.mem_dedup.mpr (List.mem_map.mpr ⟨e, he, rfl⟩))
        refine List.mem_cons_of_mem _ (ih _ _ ?_ p (List.mem_append_left _ hp2))
        simp only [List.length_append, List.length_cons] at hf ⊢
        omega

theorem bfsLoop_closed (edges : List Edge) :
    ∀ (fuel : Nat) (v : List NodeId) (q : List (NodeId × Nat)),
      q.length + unvisCount edges v ≤ fuel →
      ∀ p ∈ bfsLoop edges fuel v q, ∀ e ∈ edges, e.from_ = p.1 →
        e.to_ ∈ v ∨ ∃ p2 ∈ bfsLoop edges fuel v q, p2.1 = e.to_ := by
  intro fuel
  induction fuel with
  | zero =>
    intro v q _ p hp
    cases q with
    | nil => simp only [bfsLoop] at hp; exact absurd hp (List.not_mem_nil _)
    | cons hd tl => simp only [bfsLoop] at hp; exact absurd hp (List.not_mem_nil _)
  | succ n ih =>
    intro v q hf p hp e he hfrom
    cases q with
    | nil => simp only [bfsLoop] at hp; exact absurd hp (List.not_mem_nil _)
    | cons hd q' =>
      obtain ⟨id, d⟩ := hd
      have hmeas := expandEdges_measure id d edges edges v
        (fun e' he' => List.mem_dedup.mpr (List.mem_map.mpr ⟨e', he', rfl⟩))
      have hf2 : (q' ++ (expandEdges id d edges v).2).length
          + unvisCount edges (expandEdges id d edges v).1 ≤ n := by
        simp only [List.length_append, List.length_cons] at hf ⊢
        omega
      simp only [bfsLoop] at hp ⊢
      rcases List.mem_cons.mp hp with rfl | hp2
      · have hto : e.to_ ∈ (expandEdges id d edges v).1 :=
          expandEdges_follows edges v e he hfrom
        rcases expandEdges_visited_from edges v e.to_ hto with hv | hpush
        · exact Or.inl hv
        · refine Or.inr ⟨(e.to_, d + 1), ?_, rfl⟩
          refine List.mem_cons_of_mem _ ?_
          exact bfsLoop_queue_subset edges n _ _ hf2 _ (List.mem_append_right _ hpush)
      · rcases ih _ _ hf2 p hp2 e he hfrom with hv | ⟨p2, hp2', hp2eq⟩
        · rcases expandEdges_visited_from edges v e.to_ hv with hvv | hpush
          · exact Or.inl hvv
          · refine Or.inr ⟨(e.to_, d + 1), ?_, rfl⟩
            refine List.mem_cons_of_mem _ ?_
            exact bfsLoop_queue_subset edges n _ _ hf2 _ (List.mem_append_right _ hpush)
        · exact Or.inr ⟨p2, List.mem_cons_of_mem _ hp2', hp2eq⟩

theorem bfs_from_cons (g : DependencyGraph) (root : NodeId) :
    g.bfs_from root = (root, 0) ::
      bfsLoop g.edges g.edges.length (expandEdges root 0 g.edges [root]).1
        ([] ++ (expandEdges root 0 g.edges [root]).2) := rfl

/-- C4: the BFS contract (P6): `bfs_from root` lists each NodeId at most
once; the root comes first at distance 0; distances are monotonically
non-decreasing; and every outgoing edge of a listed node — regardless of its
edge type — is followed, its target being listed too. -/
theorem claim_C4_bfs_contract :
    ∀ (g : DependencyGraph) (root : NodeId),
      ((g.bfs_from root).map Prod.fst).Nodup
      ∧ (g.bfs_from root).head? = some (root, 0)
      ∧ ((g.bfs_from root).map Prod.snd).Sorted (· ≤ ·)
      ∧ (∀ p ∈ g.bfs_from root, ∀ e ∈ g.edges, e.from_ = p.1 →
          ∃ p2 ∈ g.bfs_from root, p2.1 = e.to_) := by
  intro g root
  have hamp : ([((root : NodeId), (0 : Nat))] : List (NodeId × Nat)).length
      + unvisCount g.edges [root] ≤ g.edges.length + 1 := by
    have := unvisCount_le g.edges [root]
    simp only [List.length_singleton]
    omega
  refine ⟨?_, ?_, ?_, ?_⟩
  · apply bfsLoop_nodup
    · simp
    · simp
  · rw [bfs_from_cons]
    rfl
  · apply bfsLoop_sorted
    · simp
    · intro p hp p2 hp2
      rcases List.mem_singleton.mp hp with rfl
      rcases List.mem_singleton.mp hp2 with rfl
      simp
  · intro p hp e he hfrom
    rcases bfsLoop_closed g.edges _ _ _ hamp p hp e he hfrom with hv | h
    · rcases List.mem_singleton.mp hv with hveq
      refine ⟨(root, 0), ?_, hveq.symm⟩
      rw [bfs_from_cons]
      exact List.mem_cons_self _ _
    · exact h

/-- Witness for C4 on a concrete two-node graph with one `Calls` edge. -/
theorem claim_C4_witness :
    (((DependencyGraph.mk [] [⟨⟨"a.rs", 0, 0⟩, ⟨"b.rs", 1, 0⟩, EdgeType.Calls⟩]).bfs_from
        ⟨"a.rs", 0, 0⟩).map Prod.fst).Nodup
    ∧ (∃ p2 ∈ (DependencyGraph.mk []
          [⟨⟨"a.rs", 0, 0⟩, ⟨"b.rs", 1, 0⟩, EdgeType.Calls⟩]).bfs_from ⟨"a.rs", 0, 0⟩,
        p2.1 = ⟨"b.rs", 1, 0⟩) := by
  refine ⟨(claim_C4_bfs_contract _ _).1, ?_⟩
  exact (claim_C4_bfs_contract _ ⟨"a.rs", 0, 0⟩).2.2.2 (⟨"a.rs", 0, 0⟩, 0) (by decide)
    ⟨⟨"a.rs", 0, 0⟩, ⟨"b.rs", 1, 0⟩, EdgeType.Calls⟩ (by decide) rfl

theorem checkedTokens_cons (s : SectionD) (l : List SectionD) :
    checkedTokens (s :: l)
      = (if budgetChecked s then estimate_tokens s.content else 0)
        + checkedTokens l := by
  unfold checkedTokens
  rw [List.filter_cons]
  cases h : budgetChecked s
  · simp [h]
  · simp [h]

theorem buildStep_spec (maxTokens : Nat) (id : NodeId) (depth : Nat)
    (node : CodeNode) (curr : Nat) :
    (budgetChecked ⟨id, depth, (buildStep maxTokens id depth node curr).1,
        (buildStep maxTokens id depth node curr).2.1⟩ = true →
      (buildStep maxTokens id depth node curr).2.2
          = curr + estimate_tokens (buildStep maxTokens id depth node curr).1
        ∧ (buildStep maxTokens id depth node curr).2.2 ≤ maxTokens)
    ∧ curr ≤ (buildStep maxTokens id depth node curr).2.2 := by
  unfold buildStep
  by_cases h0 : depth = 0
  · simp [budgetChecked, h0]
  by_cases h1 : depth = 1
  · by_cases hfit : curr + estimate_tokens node.code ≤ maxTokens
    · simp only [h0, h1, if_neg, if_pos, if_true, budgetChecked]
      simp [hfit]
    · simp only [h0, h1, if_neg, if_pos, if_true, budgetChecked]
      simp [hfit]
  · by_cases hfit : curr + estimate_tokens (extract_interface node.code) ≤ maxTokens
    · have h2 : 2 ≤ depth := by omega
      simp [budgetChecked, h0, h1, hfit, h2]
    · simp [budgetChecked, h0, h1, hfit]

theorem buildLoopD_checked_le (g : DependencyGraph) (maxTokens : Nat) :
    ∀ (items : List (NodeId × Nat)) (curr : Nat) (secs : List SectionD),
      buildLoopD g maxTokens items curr = some secs →
      curr + checkedTokens secs ≤ maxTokens ∨ checkedTokens secs = 0 := by
  intro items
  induction items with
  | nil =>
    intro curr secs h
    simp only [buildLoopD] at h
    rw [← Option.some.inj h]
    right
    rfl
  | cons it rest ih =>
    obtain ⟨id, depth⟩ := it
    intro curr secs h
    simp only [buildLoopD] at h
    by_cases hge : curr ≥ maxTokens
    · rw [if_pos hge] at h
      rw [← Option.some.inj h]
      right
      rfl
    · rw [if_neg hge] at h
      cases hfind : g.findNode id with
      | none => rw [hfind] at h; cases h
      | some node =>
        simp only [hfind] at h
        cases hrec : buildLoopD g maxTokens rest
            (buildStep maxTokens id depth node curr).2.2 with
        | none => simp only [hrec] at h; cases h
        | some secs' =>
          simp only [hrec] at h
          rw [← Option.some.inj h]
          rw [checkedTokens_cons]
          have hspec := buildStep_spec maxTokens id depth node curr
          have hihres := ih _ _ hrec
          cases hchk : budgetChecked ⟨id, depth,
              (buildStep maxTokens id depth node curr).1,
              (buildStep maxTokens id depth node curr).2.1⟩ with
          | true =>
            obtain ⟨hcurr', hle⟩ := hspec.1 hchk
            rw [if_pos rfl]
            have hcontent : estimate_tokens (SectionD.mk id depth
                (buildStep maxTokens id depth node curr).1
                (buildStep maxTokens id depth node curr).2.1).content
                = estimate_tokens (buildStep maxTokens id depth node curr).1 := rfl
            rw [hcontent]
            rcases hihres with hl | hr
            · left; omega
            · left; omega
          | false =>
            rw [if_neg (by simp)]
            rcases hihres with hl | hr
            · left
              have := hspec.2
              omega
            · right
              omega

/-- C7 fails as stated: the source computes `text.len() / 4` — a floor over
the UTF-8 byte count — not a ceiling over the character count: on the
one-character text `"a"` the estimate is 0 while the claimed ceiling is 1. -/
theorem claim_C7_counterexample :
    estimate_tokens "a" = 0 ∧ estimate_tokens_ceil "a" = 1
      ∧ estimate_tokens "a" ≠ estimate_tokens_ceil "a" :=
  ⟨by decide, by decide, by decide⟩

/-- C7 (amended): the renderer's token estimate is the floor, not the
ceiling, of the UTF-8 byte count divided by 4; on texts whose byte count
equals their character count (ASCII) it never exceeds the spec's ceiling and
coincides with it exactly when the length is a multiple of 4. -/
theorem claim_C7_token_estimate :
    ∀ s : String, estimate_tokens s = s.utf8ByteSize / 4
      ∧ (s.utf8ByteSize = s.length →
          estimate_tokens s ≤ estimate_tokens_ceil s
            ∧ (estimate_tokens s = estimate_tokens_ceil s ↔ 4 ∣ s.length)) := by
  intro s
  refine ⟨rfl, fun h => ?_⟩
  unfold estimate_tokens estimate_tokens_ceil
  rw [h]
  omega

/-- Witness for C7 (amended) at the four-byte ASCII text `"abcd"`. -/
theorem claim_C7_witness :
    estimate_tokens "abcd" ≤ estimate_tokens_ceil "abcd"
      ∧ (estimate_tokens "abcd" = estimate_tokens_ceil "abcd"
          ↔ 4 ∣ "abcd".length) :=
  (claim_C7_token_estimate "abcd").2 (by decide)

theorem findNode_isSome_iff (g : DependencyGraph) (id : NodeId) :
    (g.findNode id).isSome = g.containsKey id := by
  unfold DependencyGraph.findNode DependencyGraph.containsKey
  induction g.nodes with
  | nil => rfl
  | cons p ps ih =>
    rw [List.find?_cons, List.any_cons]
    cases h : (decide (p.1 = id)) with
    | true => rfl
    | false => rw [Bool.false_or]; exact ih

theorem buildLoopD_isSome (g : DependencyGraph) (maxTokens : Nat) :
    ∀ (items : List (NodeId × Nat)),
      (∀ p ∈ items, (g.findNode p.1).isSome = true) →
      ∀ curr, (buildLoopD g maxTokens items curr).isSome = true := by
  intro items
  induction items with
  | nil => intro _ curr; rfl
  | cons it rest ih =>
    obtain ⟨id, depth⟩ := it
    intro hall curr
    simp only [buildLoopD]
    by_cases hge : curr ≥ maxTokens
    · rw [if_pos hge]; rfl
    · rw [if_neg hge]
      have hsome := hall (id, depth) (List.mem_cons_self _ _)
      cases hfind : g.findNode id with
      | none => rw [hfind] at hsome; cases hsome
      | some node =>
        have hrec := ih (fun p hp => hall p (List.mem_cons_of_mem _ hp))
          (buildStep maxTokens id depth node curr).2.2
        cases hrec2 : buildLoopD g maxTokens rest
            (buildStep maxTokens id depth node curr).2.2 with
        | none => rw [hrec2] at hrec; cases hrec
        | some secs => simp [hrec2]

/-- C10: under the orchestrator's invariant that every edge endpoint is a
key of the node map, and for a root present in the map,
`HierarchicalContext::build` is total: the node lookup performed for every
BFS-reached id succeeds, so the `unwrap` never panics. -/
theorem claim_C10_build_no_panic :
    ∀ (g : DependencyGraph) (root : NodeId) (maxTokens : Nat),
      (∀ e ∈ g.edges, g.containsKey e.from_ = true ∧ g.containsKey e.to_ = true) →
      g.containsKey root = true →
      (HierarchicalContext.build g root maxTokens).isSome = true := by
  intro g root maxT hedges hroot
  have hyp : ∀ p ∈ g.bfs_from root, (g.findNode p.1).isSome = true := by
    intro p hp
    rw [findNode_isSome_iff]
    rcases bfsLoop_mem_sources g.edges _ _ _ p hp with hq | ⟨e, he, heq⟩
    · rcases List.mem_singleton.mp hq with rfl
      exact hroot
    · rw [← heq]
      exact (hedges e he).2
  have h := buildLoopD_isSome g maxT (g.bfs_from root) hyp 0
  unfold HierarchicalContext.build
  cases hloop : buildLoopD g maxT (g.bfs_from root) 0 with
  | none => rw [hloop] at h; cases h
  | some secs => rfl

/-- Witness for C10 on a concrete two-node graph whose edge endpoints are
both keys of the node map. -/
theorem claim_C10_witness :
    (HierarchicalContext.build
      (DependencyGraph.mk
        [(⟨"t.rs", 0, 0⟩, ⟨⟨"t.rs", 0, 0⟩, "abcd", "target"⟩),
         (⟨"d.rs", 1, 0⟩, ⟨⟨"d.rs", 1, 0⟩, "fn f", "definition"⟩)]
        [⟨⟨"t.rs", 0, 0⟩, ⟨"d.rs", 1, 0⟩, EdgeType.Defines⟩])
      ⟨"t.rs", 0, 0⟩ 100).isSome = true := by
  apply claim_C10_build_no_panic
  · intro e he
    rcases List.mem_singleton.mp he with rfl
    exact ⟨by decide, by decide⟩
  · decide

/-- C2 fails as stated, in two ways.  With `max_tokens = 0` the loop's
`current_tokens >= max_tokens` break fires before the target is processed, so
the "mandatory" depth-0 target block is not included at all.  And with
`max_tokens = 1` a depth-1 dependency whose interface summary costs 4 tokens
is still included as an `InterfaceSummary` section (its cost added without a
budget check), so the sections other than the target total 4 tokens — beyond
the budget under the claim's own ceiling estimate. -/
theorem claim_C2_counterexample :
    (∃ ctx : HierarchicalContext,
      HierarchicalContext.build
        (DependencyGraph.mk
          [(⟨"t.rs", 0, 0⟩, ⟨⟨"t.rs", 0, 0⟩, "abcd", "target"⟩)] [])
        ⟨"t.rs", 0, 0⟩ 0 = some ctx
      ∧ ctx.sections = [])
    ∧ (∃ ctx : HierarchicalContext,
      HierarchicalContext.build
        (DependencyGraph.mk
          [(⟨"t.rs", 0, 0⟩, ⟨⟨"t.rs", 0, 0⟩, "TTTT", "target"⟩),
           (⟨"d.rs", 1, 0⟩, ⟨⟨"d.rs", 1, 0⟩, "fn aaaaaaaaaaaaa", "call"⟩)]
          [⟨⟨"t.rs", 0, 0⟩, ⟨"d.rs", 1, 0⟩, EdgeType.Calls⟩])
        ⟨"t.rs", 0, 0⟩ 1 = some ctx
      ∧ ((ctx.sections.filter (fun s => decide (s.1 ≠ ⟨"t.rs", 0, 0⟩))).map
          (fun s => estimate_tokens_ceil s.2.1)).sum = 4
      ∧ ¬ (4 ≤ 1)) := by
  refine ⟨⟨⟨[]⟩, by decide, rfl⟩, ?_⟩
  refine ⟨⟨[(⟨"t.rs", 0, 0⟩, "TTTT", InclusionLevel.FullSource),
    (⟨"d.rs", 1, 0⟩, "fn aaaaaaaaaaaaa", InclusionLevel.InterfaceSummary)]⟩,
    by decide, by decide, by decide⟩

/-- C2 (amended): for every graph, root and budget, whenever
`HierarchicalContext::build` returns, its sections are the depth-instrumented
loop's output with depths erased; the total (floor) token estimate of the
budget-checked sections — full source at depth 1 and interface summaries at
depth ≥ 2 — never exceeds `max_tokens`; and provided `max_tokens` is
positive, the target block at depth 0 is included in full.  Degraded
sections (an interface summary substituted at depth 1, or a one-line
reference at depth ≥ 2, the latter never counted) may push the overall total
beyond the budget, and with `max_tokens = 0` nothing at all is included. -/
theorem claim_C2_budget :
    ∀ (g : DependencyGraph) (root : NodeId) (maxTokens : Nat)
      (ctx : HierarchicalContext),
      HierarchicalContext.build g root maxTokens = some ctx →
      ∃ secs : List SectionD,
        buildLoopD g maxTokens (g.bfs_from root) 0 = some secs
        ∧ ctx.sections = secs.map (fun s => (s.id, s.content, s.level))
        ∧ checkedTokens secs ≤ maxTokens
        ∧ (0 < maxTokens →
            ∃ node : CodeNode, g.findNode root = some node
              ∧ (root, node.code, InclusionLevel.FullSource) ∈ ctx.sections) := by
  intro g root maxT ctx hbuild
  unfold HierarchicalContext.build at hbuild
  cases hloop : buildLoopD g maxT (g.bfs_from root) 0 with
  | none => rw [hloop] at hbuild; cases hbuild
  | some secs =>
    rw [hloop] at hbuild
    have hctx := Option.some.inj hbuild
    refine ⟨secs, rfl, by rw [← hctx], ?_, ?_⟩
    · rcases buildLoopD_checked_le g maxT _ _ _ hloop with h | h
      · omega
      · omega
    · intro hpos
      rw [bfs_from_cons] at hloop
      simp only [buildLoopD] at hloop
      rw [if_neg (by omega)] at hloop
      cases hfind : g.findNode root with
      | none => rw [hfind] at hloop; cases hloop
      | some node =>
        have hstep : buildStep maxT root 0 node 0
            = (node.code, InclusionLevel.FullSource, 0) := rfl
        simp only [hfind, hstep] at hloop
        cases hrec : buildLoopD g maxT
            (bfsLoop g.edges g.edges.length (expandEdges root 0 g.edges [root]).1
              ([] ++ (expandEdges root 0 g.edges [root]).2)) 0 with
        | none => simp only [hrec] at hloop; cases hloop
        | some secs' =>
          simp only [hrec] at hloop
          have hsecs := Option.some.inj hloop
          refine ⟨node, rfl, ?_⟩
          rw [← hctx]
          rw [← hsecs]
          exact List.mem_cons_self _ _

/-- Witness for C2 (amended) on a concrete one-node graph with a positive
budget. -/
theorem claim_C2_witness :
    ∃ secs : List SectionD,
      buildLoopD
        (DependencyGraph.mk
          [(⟨"t.rs", 0, 0⟩, ⟨⟨"t.rs", 0, 0⟩, "abcd", "target"⟩)] [])
        10
        ((DependencyGraph.mk
          [(⟨"t.rs", 0, 0⟩, ⟨⟨"t.rs", 0, 0⟩, "abcd", "target"⟩)] []).bfs_from
            ⟨"t.rs", 0, 0⟩) 0 = some secs
      ∧ (HierarchicalContext.mk
          [(⟨"t.rs", 0, 0⟩, "abcd", InclusionLevel.FullSource)]).sections
          = secs.map (fun s => (s.id, s.content, s.level))
      ∧ checkedTokens secs ≤ 10
      ∧ (0 < 10 →
          ∃ node : CodeNode,
            (DependencyGraph.mk
              [(⟨"t.rs", 0, 0⟩, ⟨⟨"t.rs", 0, 0⟩, "abcd", "target"⟩)] []).findNode
                ⟨"t.rs", 0, 0⟩ = some node
            ∧ (⟨"t.rs", 0, 0⟩, node.code, InclusionLevel.FullSource)
                ∈ (HierarchicalContext.mk
                    [(⟨"t.rs", 0, 0⟩, "abcd", InclusionLevel.FullSource)]).sections) :=
  claim_C2_budget _ ⟨"t.rs", 0, 0⟩ 10
    ⟨[(⟨"t.rs", 0, 0⟩, "abcd", InclusionLevel.FullSource)]⟩ (by decide)

/-- C1 (amended): in the strict slicer's outgoing-call processing, a `Calls`
edge from the definition to the callee is emitted iff the callee's NodeId is
already present in the graph — in which case no reachability check happens —
or at least one of the call's from-ranges is reachable; for a
not-yet-present callee with no reachable site, the graph is returned
unchanged (no node, no edge). -/
theorem claim_C1_call_pruning :
    ∀ (w : SliceWorld) (def_path : String) (def_id : NodeId)
      (g g' : DependencyGraph) (call : OutgoingCall),
      processCall w def_path def_id g call = .ok g' →
      (g'.edges = g.edges ++
        (if (g.containsKey ⟨call.to_.file, call.to_.line, call.to_.column⟩
            || call.from_ranges.any (fun r => is_reachable w def_path r.1 r.2))
            = true
          then [⟨def_id, ⟨call.to_.file, call.to_.line, call.to_.column⟩,
            EdgeType.Calls⟩]
          else []))
      ∧ (g.containsKey ⟨call.to_.file, call.to_.line, call.to_.column⟩ = false →
          call.from_ranges.any (fun r => is_reachable w def_path r.1 r.2) = false →
          g' = g) := by
  intro w def_path def_id g g' call h
  simp only [processCall] at h
  cases hck : g.containsKey ⟨call.to_.file, call.to_.line, call.to_.column⟩ with
  | true =>
    rw [hck] at h
    rw [if_neg (by simp)] at h
    have hg := Except.ok.inj h
    constructor
    · rw [← hg]
      rw [if_pos (by simp [hck])]
      rfl
    · intro hck2
      cases hck2
  | false =>
    rw [hck] at h
    rw [if_pos (by simp)] at h
    cases hany : call.from_ranges.any (fun r => is_reachable w def_path r.1 r.2) with
    | false =>
      rw [hany] at h
      rw [if_pos (by simp)] at h
      have hg := Except.ok.inj h
      constructor
      · rw [← hg, if_neg (by simp [hck, hany])]
        simp
      · intro _ _
        exact hg.symm
    | true =>
      rw [hany] at h
      rw [if_neg (by simp)] at h
      cases hread : read_implementation w call.to_.file call.to_.line with
      | error e => rw [hread] at h; cases h
      | ok call_code =>
        rw [hread] at h
        have hg := Except.ok.inj h
        constructor
        · rw [← hg]
          rw [if_pos (by simp [hany])]
          rfl
        · intro _ hany2
          cases hany2

/-- C1 fails as stated: with a single definition whose only outgoing call
targets the definition itself (its NodeId already in the graph), the `Calls`
edge is emitted although the call's only from-range is unreachable (its
constraint union `x == 1, x > 5` is unsatisfiable) — the
`!graph.nodes.contains_key` guard skips the reachability check entirely. -/
theorem claim_C1_counterexample :
    ((Slicer.build_graph
        (SliceWorld.mk
          (fun f => if f = "m.rs" then some "fn t()\nline1\nfn f()" else none)
          (fun _ => 0)
          (fun _ _ _ => [])
          (fun _ _ _ => [⟨"m.rs", 2, 0⟩])
          (fun _ _ _ => [⟨"m.rs", 2, 0, "f"⟩])
          (fun _ => [⟨⟨"m.rs", 2, 0, "f"⟩, [(7, 4)]⟩])
          (fun _ _ _ => some "fn f()")
          (fun _ _ _ => ([⟨"x", "==", 1⟩], [⟨"x", ">", 5⟩]))
          (fun _ => [])
          (.error "unused"))
        "m.rs" 0 0).toOption.map DependencyGraph.edges).getD []
      = [⟨⟨"m.rs", 0, 0⟩, ⟨"m.rs", 2, 0⟩, EdgeType.Defines⟩,
         ⟨⟨"m.rs", 2, 0⟩, ⟨"m.rs", 2, 0⟩, EdgeType.Calls⟩]
    ∧ is_reachable
        (SliceWorld.mk
          (fun f => if f = "m.rs" then some "fn t()\nline1\nfn f()" else none)
          (fun _ => 0)
          (fun _ _ _ => [])
          (fun _ _ _ => [⟨"m.rs", 2, 0⟩])
          (fun _ _ _ => [⟨"m.rs", 2, 0, "f"⟩])
          (fun _ => [⟨⟨"m.rs", 2, 0, "f"⟩, [(7, 4)]⟩])
          (fun _ _ _ => some "fn f()")
          (fun _ _ _ => ([⟨"x", "==", 1⟩], [⟨"x", ">", 5⟩]))
          (fun _ => [])
          (.error "unused"))
        "m.rs" 7 4 = false :=
  ⟨by decide, by decide⟩

/-- Witness for C1 (amended) at a concrete call whose callee NodeId is
already in the graph. -/
theorem claim_C1_witness :
    ∃ g' : DependencyGraph,
      processCall
        (SliceWorld.mk (fun _ => none) (fun _ => 0) (fun _ _ _ => [])
          (fun _ _ _ => []) (fun _ _ _ => []) (fun _ => [])
          (fun _ _ _ => none) (fun _ _ _ => ([], [])) (fun _ => [])
          (.error "unused"))
        "m.rs" ⟨"m.rs", 2, 0⟩
        (DependencyGraph.mk
          [(⟨"m.rs", 2, 0⟩, ⟨⟨"m.rs", 2, 0⟩, "fn f()", "call"⟩)] [])
        ⟨⟨"m.rs", 2, 0, "f"⟩, []⟩ = .ok g'
      ∧ g'.edges =
        (DependencyGraph.mk
          [(⟨"m.rs", 2, 0⟩, ⟨⟨"m.rs", 2, 0⟩, "fn f()", "call"⟩)] []).edges ++
          (if ((DependencyGraph.mk
              [(⟨"m.rs", 2, 0⟩, ⟨⟨"m.rs", 2, 0⟩, "fn f()", "call"⟩)]
              []).containsKey ⟨"m.rs", 2, 0⟩
              || ([] : List (Nat × Nat)).any (fun r =>
                is_reachable
                  (SliceWorld.mk (fun _ => none) (fun _ => 0) (fun _ _ _ => [])
                    (fun _ _ _ => []) (fun _ _ _ => []) (fun _ => [])
                    (fun _ _ _ => none) (fun _ _ _ => ([], [])) (fun _ => [])
                    (.error "unused"))
                  "m.rs" r.1 r.2)) = true
            then [⟨⟨"m.rs", 2, 0⟩, ⟨"m.rs", 2, 0⟩, EdgeType.Calls⟩]
            else []) := by
  refine ⟨DependencyGraph.mk
    [(⟨"m.rs", 2, 0⟩, ⟨⟨"m.rs", 2, 0⟩, "fn f()", "call"⟩)]
    [⟨⟨"m.rs", 2, 0⟩, ⟨"m.rs", 2, 0⟩, EdgeType.Calls⟩], rfl, ?_⟩
  exact (claim_C1_call_pruning
    (SliceWorld.mk (fun _ => none) (fun _ => 0) (fun _ _ _ => [])
      (fun _ _ _ => []) (fun _ _ _ => []) (fun _ => [])
      (fun _ _ _ => none) (fun _ _ _ => ([], [])) (fun _ => [])
      (.error "unused"))
    "m.rs" ⟨"m.rs", 2, 0⟩
    (DependencyGraph.mk
      [(⟨"m.rs", 2, 0⟩, ⟨⟨"m.rs", 2, 0⟩, "fn f()", "call"⟩)] [])
    (DependencyGraph.mk
      [(⟨"m.rs", 2, 0⟩, ⟨⟨"m.rs", 2, 0⟩, "fn f()", "call"⟩)]
      [⟨⟨"m.rs", 2, 0⟩, ⟨"m.rs", 2, 0⟩, EdgeType.Calls⟩])
    ⟨⟨"m.rs", 2, 0, "f"⟩, []⟩ rfl).1

theorem containsKey_add_node (g : DependencyGraph) (n : CodeNode) (id : NodeId) :
    (g.add_node n).containsKey id = (decide (n.id = id) || g.containsKey id) := rfl

theorem containsKey_add_edge (g : DependencyGraph) (e : Edge) (id : NodeId) :
    (g.add_edge e).containsKey id = g.containsKey id := rfl

theorem containsKey_mono_add_node {g : DependencyGraph} {n : CodeNode}
    {id : NodeId} (h : g.containsKey id = true) :
    (g.add_node n).containsKey id = true := by
  rw [containsKey_add_node, h, Bool.or_true]

theorem foldlM_preserves_key {α : Type}
    (f : DependencyGraph → α → Except String DependencyGraph) (id : NodeId)
    (hf : ∀ g a g', f g a = .ok g' →
      g.containsKey id = true → g'.containsKey id = true) :
    ∀ (l : List α) (g g' : DependencyGraph),
      l.foldlM f g = .ok g' → g.containsKey id = true →
      g'.containsKey id = true := by
  intro l
  induction l with
  | nil =>
    intro g g' h hk
    rw [← Except.ok.inj h]
    exact hk
  | cons a l ih =>
    intro g g' h hk
    rw [List.foldlM_cons] at h
    cases hfa : f g a with
    | error e => rw [hfa] at h; cases h
    | ok g1 =>
      rw [hfa] at h
      exact ih g1 g' h (hf g a g1 hfa hk)

theorem processCall_preserves_key (w : SliceWorld) (def_path : String)
    (def_id : NodeId) (id : NodeId) :
    ∀ (g : DependencyGraph) (call : OutgoingCall) (g' : DependencyGraph),
      processCall w def_path def_id g call = .ok g' →
      g.containsKey id = true → g'.containsKey id = true := by
  intro g call g' h hk
  simp only [processCall] at h
  cases hck : g.containsKey ⟨call.to_.file, call.to_.line, call.to_.column⟩ with
  | true =>
    rw [hck] at h
    rw [if_neg (by simp)] at h
    rw [← Except.ok.inj h]
    exact hk
  | false =>
    rw [hck] at h
    rw [if_pos (by simp)] at h
    cases hany : call.from_ranges.any (fun r => is_reachable w def_path r.1 r.2) with
    | false =>
      rw [hany] at h
      rw [if_pos (by simp)] at h
      rw [← Except.ok.inj h]
      exact hk
    | true =>
      rw [hany] at h
      rw [if_neg (by simp)] at h
      cases hread : read_implementation w call.to_.file call.to_.line with
      | error e => rw [hread] at h; cases h
      | ok call_code =>
        rw [hread] at h
        rw [← Except.ok.inj h]
        rw [containsKey_add_edge]
        exact containsKey_mono_add_node hk

theorem processRef_preserves_key (w : SliceWorld) (target_id : NodeId)
    (id : NodeId) :
    ∀ (g : DependencyGraph) (location : Location) (g' : DependencyGraph),
      processRef w target_id g location = .ok g' →
      g.containsKey id = true → g'.containsKey id = true := by
  intro g location g' h hk
  simp only [processRef] at h
  cases hread : read_location w location.file location.line with
  | error e => rw [hread] at h; cases h
  | ok ref_code =>
    rw [hread] at h
    rw [← Except.ok.inj h]
    rw [containsKey_add_edge]
    exact containsKey_mono_add_node hk

theorem processDef_preserves_key (w : SliceWorld) (target_id : NodeId)
    (id : NodeId) :
    ∀ (g : DependencyGraph) (location : Location) (g' : DependencyGraph),
      processDef w target_id g location = .ok g' →
      g.containsKey id = true → g'.containsKey id = true := by
  intro g location g' h hk
  simp only [processDef] at h
  cases hread : read_implementation w location.file location.line with
  | error e => rw [hread] at h; cases h
  | ok def_code =>
    rw [hread] at h
    refine foldlM_preserves_key _ id ?_ _ _ _ h ?_
    · intro g1 item g2 h1 hk1
      exact foldlM_preserves_key _ id
        (fun g a g' hfa hka =>
          processCall_preserves_key w location.file
            ⟨location.file, location.line, location.column⟩ id g a g' hfa hka)
        _ _ _ h1 hk1
    · rw [containsKey_add_edge]
      exact containsKey_mono_add_node hk

theorem findNode_add_edge (g : DependencyGraph) (e : Edge) (id : NodeId) :
    (g.add_edge e).findNode id = g.findNode id := rfl

theorem add_dependency_preserves_found (cache : String → List LocatedSymbol)
    (g : DependencyGraph) (tid : NodeId) (name : String) (et : EdgeType)
    (id : NodeId) (hk : g.containsKey id = true) :
    (add_dependency cache g tid name et).findNode id = g.findNode id
      ∧ (add_dependency cache g tid name et).containsKey id = true := by
  simp only [add_dependency]
  split
  · exact ⟨rfl, hk⟩
  · rename_i d hh
    split
    · exact ⟨rfl, hk⟩
    · rename_i hck
      have hne : ¬ ((⟨d.file, d.info.line, 0⟩ : NodeId) = id) := by
        intro he
        exact hck (he ▸ hk)
      constructor
      · rw [findNode_add_edge]
        unfold DependencyGraph.findNode DependencyGraph.add_node
        simp only []
        rw [List.find?_cons_of_neg]
        simp [hne]
      · rw [containsKey_add_edge]
        exact containsKey_mono_add_node hk

theorem foldl_add_dependency_preserves (cache : String → List LocatedSymbol)
    (tid : NodeId) (et : EdgeType) (id : NodeId) :
    ∀ (names : List String) (g : DependencyGraph),
      g.containsKey id = true →
      ((names.foldl (fun g name => add_dependency cache g tid name et) g).findNode id
          = g.findNode id
        ∧ (names.foldl (fun g name => add_dependency cache g tid name et) g).containsKey id
          = true) := by
  intro names
  induction names with
  | nil => intro g hk; exact ⟨rfl, hk⟩
  | cons n ns ih =>
    intro g hk
    have h1 := add_dependency_preserves_found cache g tid n et id hk
    have h2 := ih (add_dependency cache g tid n et) h1.2
    simp only [List.foldl_cons]
    exact ⟨h2.1.trans h1.1, h2.2⟩

theorem findNode_target_fresh (tid : NodeId) (code : String) :
    (DependencyGraph.empty.add_node ⟨tid, code, "target"⟩).findNode tid
      = some ⟨tid, code, "target"⟩ := by
  unfold DependencyGraph.findNode DependencyGraph.add_node DependencyGraph.empty
  simp only []
  rw [List.find?_cons_of_pos]
  · rfl
  · simp

theorem containsKey_target_fresh (tid : NodeId) (code : String)
    (node_type : String) :
    (DependencyGraph.empty.add_node ⟨tid, code, node_type⟩).containsKey tid = true := by
  unfold DependencyGraph.containsKey DependencyGraph.add_node DependencyGraph.empty
  simp

theorem slice_target (w : SliceWorld) (tf : String) (tl tc : Nat)
    (g : DependencyGraph) (h : FuzzySlicer.slice w tf tl tc = .ok g) :
    ∃ n : CodeNode, g.findNode ⟨tf, tl, tc⟩ = some n
      ∧ n.node_type = "target" := by
  simp only [FuzzySlicer.slice] at h
  cases hfs : w.fs tf with
  | none => simp only [hfs] at h; cases h
  | some content =>
    simp only [hfs] at h
    cases htc : fuzzyTargetCode w content tl with
    | error e => simp only [htc] at h; cases h
    | ok target_code =>
      simp only [htc] at h
      cases hllm : w.llm with
      | error e => simp only [hllm] at h; cases h
      | ok analysis =>
        simp only [hllm] at h
        have hg := Except.ok.inj h
        have hk0 := containsKey_target_fresh ⟨tf, tl, tc⟩ target_code "target"
        have h1 := foldl_add_dependency_preserves w.symbolCache ⟨tf, tl, tc⟩
          EdgeType.Calls ⟨tf, tl, tc⟩ analysis.calls _ hk0
        have h2 := foldl_add_dependency_preserves w.symbolCache ⟨tf, tl, tc⟩
          EdgeType.References ⟨tf, tl, tc⟩ analysis.types _ h1.2
        refine ⟨⟨⟨tf, tl, tc⟩, target_code, "target"⟩, ?_, rfl⟩
        rw [← hg]
        rw [h2.1, h1.1]
        exact findNode_target_fresh _ _

theorem build_graph_target_key (w : SliceWorld) (tf : String) (tl tc : Nat)
    (g : DependencyGraph) (h : Slicer.build_graph w tf tl tc = .ok g) :
    g.containsKey ⟨tf, tl, tc⟩ = true := by
  simp only [Slicer.build_graph] at h
  by_cases hd : w.diagnosticsErrors tf > 0
  · rw [if_pos hd] at h
    obtain ⟨n, hn, _⟩ := slice_target w tf tl tc g h
    have hsome : (g.findNode ⟨tf, tl, tc⟩).isSome = true := by rw [hn]; rfl
    rw [findNode_isSome_iff] at hsome
    exact hsome
  · rw [if_neg hd] at h
    cases hrl : read_location w tf tl with
    | error e => simp only [hrl] at h; cases h
    | ok code =>
      simp only [hrl] at h
      cases hrefs : (w.references tf tl tc).foldlM (processRef w ⟨tf, tl, tc⟩)
          (DependencyGraph.empty.add_node ⟨⟨tf, tl, tc⟩, code, "target"⟩) with
      | error e => simp only [hrefs] at h; cases h
      | ok g1 =>
        simp only [hrefs] at h
        have hk0 := containsKey_target_fresh ⟨tf, tl, tc⟩ code "target"
        have hk1 := foldlM_preserves_key _ ⟨tf, tl, tc⟩
          (fun g a g' => processRef_preserves_key w ⟨tf, tl, tc⟩ ⟨tf, tl, tc⟩ g a g')
          _ _ _ hrefs hk0
        exact foldlM_preserves_key _ ⟨tf, tl, tc⟩
          (fun g a g' => processDef_preserves_key w ⟨tf, tl, tc⟩ ⟨tf, tl, tc⟩ g a g')
          _ _ _ h hk1

/-- C9 (amended): both slicing paths always leave the target NodeId as a key
of the returned graph's node map, and the fuzzy path moreover leaves the
node at that key with kind `"target"`; in the strict path the kind can be
overwritten when a backend-reported location coincides with the target
position (see the counterexample), so only key membership holds there. -/
theorem claim_C9_target_presence :
    (∀ (w : SliceWorld) (tf : String) (tl tc : Nat) (g : DependencyGraph),
        Slicer.build_graph w tf tl tc = .ok g →
        g.containsKey ⟨tf, tl, tc⟩ = true)
    ∧ (∀ (w : SliceWorld) (tf : String) (tl tc : Nat) (g : DependencyGraph),
        FuzzySlicer.slice w tf tl tc = .ok g →
        ∃ n : CodeNode, g.findNode ⟨tf, tl, tc⟩ = some n
          ∧ n.node_type = "target") :=
  ⟨fun w tf tl tc g h => build_graph_target_key w tf tl tc g h,
   fun w tf tl tc g h => slice_target w tf tl tc g h⟩

/-- C9 fails as stated for the strict path: when `get_definition` reports
the target position itself (a target that is its own definition site), the
definition node overwrites the target node's kind, so the node stored at the
target NodeId has kind `"definition"`, not `"target"` — the key survives but
the kind does not. -/
theorem claim_C9_counterexample :
    ((Slicer.build_graph
        (SliceWorld.mk
          (fun f => if f = "m.rs" then some "line0" else none)
          (fun _ => 0)
          (fun _ _ _ => [])
          (fun _ _ _ => [⟨"m.rs", 0, 0⟩])
          (fun _ _ _ => [])
          (fun _ => [])
          (fun _ _ _ => some "fn t()")
          (fun _ _ _ => ([], []))
          (fun _ => [])
          (.error "unused"))
        "m.rs" 0 0).toOption.map
      (fun g => (g.findNode ⟨"m.rs", 0, 0⟩).map CodeNode.node_type)).getD none
      = some "definition"
    ∧ ("definition" : String) ≠ "target" :=
  ⟨by decide, by decide⟩

/-- Witness for C9 at concrete worlds: a strict run (target key present) and
a fuzzy run (target node present with kind `"target"`). -/
theorem claim_C9_witness :
    (∃ g : DependencyGraph,
      Slicer.build_graph
        (SliceWorld.mk
          (fun f => if f = "m.rs" then some "line0" else none)
          (fun _ => 0) (fun _ _ _ => []) (fun _ _ _ => [])
          (fun _ _ _ => []) (fun _ => []) (fun _ _ _ => none)
          (fun _ _ _ => ([], [])) (fun _ => []) (.error "unused"))
        "m.rs" 0 0 = .ok g
      ∧ g.containsKey ⟨"m.rs", 0, 0⟩ = true)
    ∧ (∃ g : DependencyGraph,
      FuzzySlicer.slice
        (SliceWorld.mk
          (fun f => if f = "m.rs" then some "let x;" else none)
          (fun _ => 1) (fun _ _ _ => []) (fun _ _ _ => [])
          (fun _ _ _ => []) (fun _ => []) (fun _ _ _ => some "let x;")
          (fun _ _ _ => ([], []))
          (fun n => if n = "helper" then
            [⟨⟨"helper", "function_item", "fn helper()", 1⟩, "m.rs"⟩] else [])
          (.ok ⟨["helper"], []⟩))
        "m.rs" 0 0 = .ok g
      ∧ ∃ n : CodeNode, g.findNode ⟨"m.rs", 0, 0⟩ = some n
          ∧ n.node_type = "target") := by
  constructor
  · refine ⟨DependencyGraph.mk
      [(⟨"m.rs", 0, 0⟩, ⟨⟨"m.rs", 0, 0⟩, "line0", "target"⟩)] [], rfl, ?_⟩
    exact claim_C9_target_presence.1
      (SliceWorld.mk
        (fun f => if f = "m.rs" then some "line0" else none)
        (fun _ => 0) (fun _ _ _ => []) (fun _ _ _ => [])
        (fun _ _ _ => []) (fun _ => []) (fun _ _ _ => none)
        (fun _ _ _ => ([], [])) (fun _ => []) (.error "unused"))
      "m.rs" 0 0 _ rfl
  · refine ⟨DependencyGraph.mk
      [(⟨"m.rs", 1, 0⟩, ⟨⟨"m.rs", 1, 0⟩, "fn helper()", "function_item"⟩),
       (⟨"m.rs", 0, 0⟩, ⟨⟨"m.rs", 0, 0⟩, "let x;", "target"⟩)]
      [⟨⟨"m.rs", 0, 0⟩, ⟨"m.rs", 1, 0⟩, EdgeType.Calls⟩], rfl, ?_⟩
    exact claim_C9_target_presence.2
      (SliceWorld.mk
        (fun f => if f = "m.rs" then some "let x;" else none)
        (fun _ => 1) (fun _ _ _ => []) (fun _ _ _ => [])
        (fun _ _ _ => []) (fun _ => []) (fun _ _ _ => some "let x;")
        (fun _ _ _ => ([], []))
        (fun n => if n = "helper" then
          [⟨⟨"helper", "function_item", "fn helper()", 1⟩, "m.rs"⟩] else [])
        (.ok ⟨["helper"], []⟩))
      "m.rs" 0 0 _ rfl

theorem add_dependency_edges (cache : String → List LocatedSymbol)
    (g : DependencyGraph) (tid : NodeId) (name : String) (et : EdgeType) :
    (add_dependency cache g tid name et).edges
      = g.edges ++ fuzzyEdgeOf cache tid et name := by
  simp only [add_dependency, fuzzyEdgeOf]
  split
  · simp
  · split
    · cases et <;> rfl
    · cases et <;> rfl

theorem foldl_add_dependency_edges (cache : String → List LocatedSymbol)
    (tid : NodeId) (et : EdgeType) :
    ∀ (names : List String) (g : DependencyGraph),
      (names.foldl (fun g name => add_dependency cache g tid name et) g).edges
        = g.edges ++ fuzzyEdges cache tid et names := by
  intro names
  induction names with
  | nil => intro g; simp [fuzzyEdges]
  | cons n ns ih =>
    intro g
    simp only [List.foldl_cons, fuzzyEdges]
    rw [ih, add_dependency_edges, List.append_assoc]

theorem fuzzyEdges_mem_intro (cache : String → List LocatedSymbol)
    (tid : NodeId) (et : EdgeType) :
    ∀ (names : List String) (name : String) (d : LocatedSymbol),
      name ∈ names → (cache name).head? = some d →
      (⟨tid, ⟨d.file, d.info.line, 0⟩, mapEdgeType et⟩ : Edge)
        ∈ fuzzyEdges cache tid et names := by
  intro names
  induction names with
  | nil => intro name d h _; exact absurd h (List.not_mem_nil _)
  | cons n ns ih =>
    intro name d hmem hd
    simp only [fuzzyEdges]
    rcases List.mem_cons.mp hmem with rfl | h2
    · apply List.mem_append_left
      simp only [fuzzyEdgeOf, hd]
      exact List.mem_singleton.mpr rfl
    · exact List.mem_append_right _ (ih name d h2 hd)

theorem fuzzyEdges_mem_elim (cache : String → List LocatedSymbol)
    (tid : NodeId) (et : EdgeType) :
    ∀ (names : List String) (e : Edge),
      e ∈ fuzzyEdges cache tid et names →
      ∃ name ∈ names, ∃ d : LocatedSymbol, (cache name).head? = some d
        ∧ e = ⟨tid, ⟨d.file, d.info.line, 0⟩, mapEdgeType et⟩ := by
  intro names
  induction names with
  | nil => intro e h; exact absurd h (List.not_mem_nil _)
  | cons n ns ih =>
    intro e h
    simp only [fuzzyEdges] at h
    rcases List.mem_append.mp h with h1 | h2
    · simp only [fuzzyEdgeOf] at h1
      cases hd : (cache n).head? with
      | none => rw [hd] at h1; exact absurd h1 (List.not_mem_nil _)
      | some d =>
        rw [hd] at h1
        exact ⟨n, List.mem_cons_self _ _, d, hd, List.mem_singleton.mp h1⟩
    · obtain ⟨name, hmem, d, hd, he⟩ := ih e h2
      exact ⟨name, List.mem_cons_of_mem _ hmem, d, hd, he⟩

theorem slice_edges (w : SliceWorld) (tf : String) (tl tc : Nat)
    (g : DependencyGraph) (analysis : LlmAnalysis)
    (hllm : w.llm = .ok analysis)
    (h : FuzzySlicer.slice w tf tl tc = .ok g) :
    g.edges
      = fuzzyEdges w.symbolCache ⟨tf, tl, tc⟩ EdgeType.Calls analysis.calls
        ++ fuzzyEdges w.symbolCache ⟨tf, tl, tc⟩ EdgeType.References
            analysis.types := by
  simp only [FuzzySlicer.slice] at h
  cases hfs : w.fs tf with
  | none => simp only [hfs] at h; cases h
  | some content =>
    simp only [hfs] at h
    cases htc : fuzzyTargetCode w content tl with
    | error e => simp only [htc] at h; cases h
    | ok target_code =>
      simp only [htc, hllm] at h
      have hg := Except.ok.inj h
      rw [← hg]
      rw [foldl_add_dependency_edges, foldl_add_dependency_edges]
      simp [DependencyGraph.empty, DependencyGraph.add_node, DependencyGraph.add_edge]

/-- C6: in the fuzzy slicer, every name from the LLM's `calls` list that
resolves in the symbol cache produces a `Calls` edge from the target node to
the first cached definition of that name; every resolved name from `types`
produces a `Defines` edge to the first cached definition (`slice` passes
`References`, which `add_dependency` maps to `Defines`); every edge of the
returned graph arises this way; and an unresolved name leaves the graph
unchanged — no node and no edge. -/
theorem claim_C6_fuzzy_edges :
    (∀ (cache : String → List LocatedSymbol) (g : DependencyGraph)
        (tid : NodeId) (name : String) (et : EdgeType),
        cache name = [] → add_dependency cache g tid name et = g)
    ∧ (∀ (w : SliceWorld) (tf : String) (tl tc : Nat) (g : DependencyGraph)
        (analysis : LlmAnalysis),
        w.llm = .ok analysis →
        FuzzySlicer.slice w tf tl tc = .ok g →
        (∀ name ∈ analysis.calls, ∀ d : LocatedSymbol,
            (w.symbolCache name).head? = some d →
            (⟨⟨tf, tl, tc⟩, ⟨d.file, d.info.line, 0⟩, EdgeType.Calls⟩ : Edge)
              ∈ g.edges)
        ∧ (∀ name ∈ analysis.types, ∀ d : LocatedSymbol,
            (w.symbolCache name).head? = some d →
            (⟨⟨tf, tl, tc⟩, ⟨d.file, d.info.line, 0⟩, EdgeType.Defines⟩ : Edge)
              ∈ g.edges)
        ∧ (∀ e ∈ g.edges, e.from_ = ⟨tf, tl, tc⟩
            ∧ (e.edge_type = EdgeType.Calls ∨ e.edge_type = EdgeType.Defines)
            ∧ ∃ name d, (w.symbolCache name).head? = some d
                ∧ (name ∈ analysis.calls ∨ name ∈ analysis.types)
                ∧ e.to_ = ⟨d.file, d.info.line, 0⟩)) := by
  constructor
  · intro cache g tid name et hname
    simp only [add_dependency, hname]
    rfl
  · intro w tf tl tc g analysis hllm h
    have hedges := slice_edges w tf tl tc g analysis hllm h
    refine ⟨?_, ?_, ?_⟩
    · intro name hmem d hd
      rw [hedges]
      exact List.mem_append_left _
        (fuzzyEdges_mem_intro w.symbolCache ⟨tf, tl, tc⟩ EdgeType.Calls
          analysis.calls name d hmem hd)
    · intro name hmem d hd
      rw [hedges]
      exact List.mem_append_right _
        (fuzzyEdges_mem_intro w.symbolCache ⟨tf, tl, tc⟩ EdgeType.References
          analysis.types name d hmem hd)
    · intro e he
      rw [hedges] at he
      rcases List.mem_append.mp he with h1 | h2
      · obtain ⟨name, hmem, d, hd, rfl⟩ :=
          fuzzyEdges_mem_elim w.symbolCache ⟨tf, tl, tc⟩ EdgeType.Calls
            analysis.calls e h1
        exact ⟨rfl, Or.inl rfl, name, d, hd, Or.inl hmem, rfl⟩
      · obtain ⟨name, hmem, d, hd, rfl⟩ :=
          fuzzyEdges_mem_elim w.symbolCache ⟨tf, tl, tc⟩ EdgeType.References
            analysis.types e h2
        exact ⟨rfl, Or.inr rfl, name, d, hd, Or.inr hmem, rfl⟩

/-- Witness for C6: an unresolved name leaves a concrete graph unchanged,
and a concrete fuzzy run produces exactly the `Calls` edge to the first
cached definition of `"helper"`. -/
theorem claim_C6_witness :
    add_dependency (fun _ => [])
        (DependencyGraph.mk
          [(⟨"m.rs", 0, 0⟩, ⟨⟨"m.rs", 0, 0⟩, "let x;", "target"⟩)] [])
        ⟨"m.rs", 0, 0⟩ "nosuch" EdgeType.Calls
      = DependencyGraph.mk
          [(⟨"m.rs", 0, 0⟩, ⟨⟨"m.rs", 0, 0⟩, "let x;", "target"⟩)] []
    ∧ (⟨⟨"m.rs", 0, 0⟩, ⟨"m.rs", 1, 0⟩, EdgeType.Calls⟩ : Edge) ∈
        (DependencyGraph.mk
          [(⟨"m.rs", 1, 0⟩, ⟨⟨"m.rs", 1, 0⟩, "fn helper()", "function_item"⟩),
           (⟨"m.rs", 0, 0⟩, ⟨⟨"m.rs", 0, 0⟩, "let x;", "target"⟩)]
          [⟨⟨"m.rs", 0, 0⟩, ⟨"m.rs", 1, 0⟩, EdgeType.Calls⟩]).edges := by
  constructor
  · exact claim_C6_fuzzy_edges.1 (fun _ => [])
      (DependencyGraph.mk
        [(⟨"m.rs", 0, 0⟩, ⟨⟨"m.rs", 0, 0⟩, "let x;", "target"⟩)] [])
      ⟨"m.rs", 0, 0⟩ "nosuch" EdgeType.Calls rfl
  · exact (claim_C6_fuzzy_edges.2
      (SliceWorld.mk
        (fun f => if f = "m.rs" then some "let x;" else none)
        (fun _ => 1) (fun _ _ _ => []) (fun _ _ _ => [])
        (fun _ _ _ => []) (fun _ => []) (fun _ _ _ => some "let x;")
        (fun _ _ _ => ([], []))
        (fun n => if n = "helper" then
          [⟨⟨"helper", "function_item", "fn helper()", 1⟩, "m.rs"⟩] else [])
        (.ok ⟨["helper"], []⟩))
      "m.rs" 0 0 _ ⟨["helper"], []⟩ rfl rfl).1 "helper" (by decide)
      ⟨⟨"helper", "function_item", "fn helper()", 1⟩, "m.rs"⟩ (by decide)

theorem requestLoop_fuel_stable (responses : Nat → Except String String) :
    ∀ (f1 f2 a : Nat), 5 - a ≤ f1 → 5 - a ≤ f2 →
      requestLoop responses f1 a = requestLoop responses f2 a := by
  intro f1
  induction f1 with
  | zero =>
    intro f2 a h1 h2
    cases hre : responses a with
    | ok v =>
      cases f2 with
      | zero => rfl
      | succ m => simp only [requestLoop, hre]
    | error e =>
      cases f2 with
      | zero => rfl
      | succ m =>
        simp only [requestLoop, hre]
        rw [if_neg]
        rintro ⟨hc1, _⟩
        omega
  | succ n ih =>
    intro f2 a h1 h2
    cases hre : responses a with
    | ok v =>
      cases f2 with
      | zero => simp only [requestLoop, hre]
      | succ m => simp only [requestLoop, hre]
    | error e =>
      cases f2 with
      | zero =>
        simp only [requestLoop, hre]
        rw [if_neg]
        rintro ⟨hc1, _⟩
        omega
      | succ m =>
        simp only [requestLoop, hre]
        by_cases hc : a < 5 ∧ isContentModified e = true
        · rw [if_pos hc, if_pos hc]
          exact ih m (a + 1) (by omega) (by omega)
        · rw [if_neg hc, if_neg hc]

theorem requestLoop_run (responses : Nat → Except String String) :
    ∀ (k : Nat), k ≤ 4 →
      (∀ i, 1 ≤ i → i ≤ k →
        ∃ e, responses i = .error e ∧ isContentModified e = true) →
      lspRequest responses = requestLoop responses (5 - k) (1 + k) := by
  intro k
  induction k with
  | zero => intro _ _; rfl
  | succ j ih =>
    intro hk hmatch
    have hrun := ih (by omega) (fun i hi1 hi2 => hmatch i hi1 (by omega))
    rw [hrun]
    obtain ⟨e, hre, hcm⟩ := hmatch (1 + j) (by omega) (by omega)
    have h5 : 5 - j = (5 - (j + 1)) + 1 := by omega
    rw [h5]
    simp only [requestLoop, hre]
    rw [if_pos ⟨by omega, hcm⟩]
    have harg : 1 + j + 1 = 1 + (j + 1) := by omega
    rw [harg]

/-- C5 (amended): the client retries a request only on a
"content modified" / `-32801` error, up to 4 retries — at most 5 attempts in
total, the loop's `attempts < 5` guard — before giving up; a success is
returned as soon as it arrives, and an error without the signal is returned
immediately.  Concretely, for any backend behaviour: a first success at
attempt `a ≤ 5` after matching errors is returned with `a` sends; a
non-matching error at attempt `a ≤ 5` after matching errors is returned
immediately with `a` sends; and when every attempt up to the fifth fails
with the signal, the fifth error is returned after exactly 5 sends. -/
theorem claim_C5_retry_policy :
    ∀ (responses : Nat → Except String String),
      (∀ (a : Nat) (v : String), 1 ≤ a → a ≤ 5 →
        (∀ i, 1 ≤ i → i < a →
          ∃ e, responses i = .error e ∧ isContentModified e = true) →
        responses a = .ok v →
        lspRequest responses = (.ok v, a))
      ∧ (∀ (a : Nat) (e : String), 1 ≤ a → a ≤ 5 →
          (∀ i, 1 ≤ i → i < a →
            ∃ e2, responses i = .error e2 ∧ isContentModified e2 = true) →
          responses a = .error e → isContentModified e = false →
          lspRequest responses = (.error e, a))
      ∧ (∀ (e : String),
          (∀ i, 1 ≤ i → i < 5 →
            ∃ e2, responses i = .error e2 ∧ isContentModified e2 = true) →
          responses 5 = .error e →
          lspRequest responses = (.error e, 5)) := by
  intro responses
  refine ⟨?_, ?_, ?_⟩
  · intro a v ha1 ha5 hearlier hok
    have hrun := requestLoop_run responses (a - 1) (by omega)
      (fun i hi1 hi2 => hearlier i hi1 (by omega))
    have harg : 1 + (a - 1) = a := by omega
    rw [harg] at hrun
    rw [hrun]
    have h5 : 5 - (a - 1) = (5 - a) + 1 := by omega
    rw [h5]
    simp only [requestLoop, hok]
  · intro a e ha1 ha5 hearlier herr hcm
    have hrun := requestLoop_run responses (a - 1) (by omega)
      (fun i hi1 hi2 => hearlier i hi1 (by omega))
    have harg : 1 + (a - 1) = a := by omega
    rw [harg] at hrun
    rw [hrun]
    have h5 : 5 - (a - 1) = (5 - a) + 1 := by omega
    rw [h5]
    simp only [requestLoop, herr]
    rw [if_neg]
    rintro ⟨_, hcm2⟩
    rw [hcm] at hcm2
    cases hcm2
  · intro e hearlier herr
    have hrun := requestLoop_run responses 4 (by omega)
      (fun i hi1 hi2 => hearlier i hi1 (by omega))
    rw [hrun]
    simp only [requestLoop, herr]
    rw [if_neg]
    rintro ⟨hc1, _⟩
    omega

/-- C5 fails as stated: against a backend that always fails with
`"content modified"`, the request is sent 5 times in total — the initial
attempt plus 4 retries — not the 5 retries (6 sends) the claim describes. -/
theorem claim_C5_counterexample :
    (lspRequest (fun _ => .error "content modified")).2 = 5
    ∧ (lspRequest (fun _ => .error "content modified")).2 - 1 = 4
    ∧ (4 : Nat) ≠ 5 :=
  ⟨by decide, by decide, by decide⟩

/-- Witness for C5 (amended): one matching failure, then a success on the
second attempt. -/
theorem claim_C5_witness :
    lspRequest (fun n => if n = 1 then .error "content modified" else .ok "v")
      = (.ok "v", 2) := by
  refine (claim_C5_retry_policy
    (fun n => if n = 1 then .error "content modified" else .ok "v")).1
    2 "v" (by omega) (by omega) ?_ (by simp)
  intro i hi1 hi2
  have : i = 1 := by omega
  subst this
  exact ⟨"content modified", by simp, by decide⟩
